import Mathlib

/-!
Verification of the meal-planner core services against their specification:
the quantity aggregator, the shopping-list reconciler and its change report,
the change-report formatter, the shopping-list presenter, and the meal shuffler.

The Python services (src/core/services/shopping.py, src/core/services/shuffle.py)
are embedded shallowly: Django querysets become Lists (with the models' default
`Meta.ordering` applied where the code iterates a queryset), Python dicts become
insertion-ordered association lists with overwrite-in-place semantics, floats
are IEEE-754 binary64 values with correctly rounded conversion, addition and
shortest-round-trip printing embedded over exact integer arithmetic, and the
random source becomes an explicit `Nat → Nat` oracle consumed sequentially.
-/

set_option linter.unusedVariables false
set_option maxRecDepth 100000

namespace MealPlanner

/-! ## Character-level utilities (Python string semantics) -/

/-- Python whitespace for `str.strip` and `\s`. -/
def isWs (c : Char) : Bool :=
  c = ' ' || c = '\t' || c = '\n' || c = '\r' || c = '\x0b' || c = '\x0c'

/-- Character class `[\d.]` of the quantity regex (ASCII digits or a dot). -/
def isDigitDot (c : Char) : Bool := c.isDigit || c = '.'

/-- Python `str.strip()` on a character list. -/
def stripChars (l : List Char) : List Char :=
  ((l.dropWhile isWs).reverse.dropWhile isWs).reverse

/-- Numeric value of a list of ASCII digit characters (most significant first). -/
def digitsToNat (l : List Char) : ℕ :=
  l.foldl (fun a c => 10 * a + (c.toNat - 48)) 0

/-- The ASCII digit character for `d < 10`. -/
def digitChar (d : ℕ) : Char := Char.ofNat (48 + d)

/-- Fuel-driven decimal rendering of a natural number (empty for 0). -/
def natCharsGo : ℕ → ℕ → List Char
  | 0, _ => []
  | f + 1, n => if n = 0 then [] else natCharsGo f (n / 10) ++ [digitChar (n % 10)]

/-- Decimal rendering of a natural number, mirroring Python `str(int)`. -/
def natChars (n : ℕ) : List Char := if n = 0 then ['0'] else natCharsGo n n

/-! ## IEEE-754 binary64 values (Python `float`)

Quantity values are Python floats: nonnegative IEEE-754 double-precision
numbers. `float()` rounds the decimal literal to the nearest double (ties to
even), `+` rounds the exact sum the same way, and `str()` prints the shortest
decimal string that reads back to the same double. All of this is embedded
exactly over ℕ/ℤ arithmetic below; only nonnegative values arise (the
quantity regex admits no sign). -/

/-- Fuel-driven binary length: number of binary digits of `n` (0 for 0);
`bitlenGo n n` is exact since `n < 2 ^ n`. -/
def bitlenGo : ℕ → ℕ → ℕ
  | 0, _ => 0
  | f + 1, n => if n = 0 then 0 else bitlenGo f (n / 2) + 1

/-- Number of binary digits of `n`. -/
def bitlen (n : ℕ) : ℕ := bitlenGo n n

/-- A nonnegative Python float: a finite binary64 value `m * 2 ^ e` in
canonical form (`2 ^ 52 ≤ m < 2 ^ 53` for `e > -1074`; any `m < 2 ^ 53` at
`e = -1074`, zero and the subnormals included), or the infinity that float
overflow produces. -/
inductive F64 where
  | fin (m : ℕ) (e : ℤ)
  | inf
deriving DecidableEq

/-- Round `num / den` (`den ≠ 0`) to the nearest integer, ties to even. -/
def rdiv (num den : ℕ) : ℕ :=
  let q := num / den
  let r := num % den
  if 2 * r > den then q + 1
  else if 2 * r < den then q
  else if q % 2 = 0 then q else q + 1

/-- The significand of `a / b` read at exponent `e`: the nearest-even integer
to `a / (b * 2 ^ e)`. -/
def sigAt (a b : ℕ) (e : ℤ) : ℕ :=
  if 0 ≤ e then rdiv a (b * 2 ^ e.toNat) else rdiv (a * 2 ^ (-e).toNat) b

/-- Round the nonnegative rational `a / b` to the nearest binary64
(round-half-to-even), exactly as CPython converts and adds floats; results
at or beyond `2 ^ 1024` give infinity. The first exponent guess from the bit
lengths is at most one too low, whence the two renormalisation steps. -/
def roundPos (a b : ℕ) : F64 :=
  if a = 0 then .fin 0 (-1074)
  else
    let e0 : ℤ := max (-1074) ((bitlen a : ℤ) - (bitlen b : ℤ) - 53)
    let m0 := sigAt a b e0
    let p1 : ℕ × ℤ := if m0 < 2 ^ 53 then (m0, e0) else (sigAt a b (e0 + 1), e0 + 1)
    let p2 : ℕ × ℤ := if p1.1 < 2 ^ 53 then p1 else (2 ^ 52, p1.2 + 1)
    if p2.2 > 971 then .inf else .fin p2.1 p2.2

/-- Float addition: the exact sum of the two dyadic values, rounded once to
the nearest double (IEEE-754 / CPython `float.__add__`). -/
def F64.add : F64 → F64 → F64
  | .inf, _ => .inf
  | _, .inf => .inf
  | .fin m1 e1, .fin m2 e2 =>
    let e := min e1 e2
    let s := m1 * 2 ^ (e1 - e).toNat + m2 * 2 ^ (e2 - e).toNat
    if 0 ≤ e then roundPos (s * 2 ^ e.toNat) 1 else roundPos s (2 ^ (-e).toNat)

instance : Add F64 := ⟨F64.add⟩

theorem F64.add_def (a b : F64) : a + b = F64.add a b := rfl

/-- The exact integer value of a finite float, when it has one (the source's
`total == int(total)` test and the `int(total)` rebinding). -/
def F64.intVal : F64 → Option ℕ
  | .inf => none
  | .fin m e =>
    if 0 ≤ e then some (m * 2 ^ e.toNat)
    else if m % 2 ^ (-e).toNat = 0 then some (m / 2 ^ (-e).toNat) else none

/-! ## Quantity parsing (the regex of `aggregate_quantities`) -/

/-- Python `float()` on a run of `[\d.]` characters: at most one dot and at
least one digit; the decimal value is rounded to the nearest double, long
literals overflowing to infinity as CPython does. -/
def floatOfChars (l : List Char) : Option F64 :=
  if l.count '.' ≤ 1 ∧ l.any Char.isDigit then
    let ip := l.takeWhile (fun c => c != '.')
    let fp := (l.dropWhile (fun c => c != '.')).drop 1
    some (roundPos (digitsToNat ip * 10 ^ fp.length + digitsToNat fp) (10 ^ fp.length))
  else
    none

/-- The per-quantity parse of `aggregate_quantities`: strip, then match
`^([\d.]+)(\s*)(.*)$` (the dot of `.*` does not cross a newline), then convert
the number with `float()`. Returns `(value, trimmed unit, had-space)` or `none`
when the element is unparseable. -/
def parseQ (q : List Char) : Option (F64 × List Char × Bool) :=
  let s := stripChars q
  let numRun := s.takeWhile isDigitDot
  let rest := s.dropWhile isDigitDot
  let sp := rest.takeWhile isWs
  let tl := rest.dropWhile isWs
  if numRun.isEmpty then none
  else if tl.contains '\n' then none
  else
    match floatOfChars numRun with
    | none => none
    | some v => some (v, stripChars tl, !sp.isEmpty)

/-! ## Number formatting (Python rendering of the summed value)

`str(float)` prints the shortest decimal string that reads back to the same
double — fixed notation while the decimal exponent is at least -4 (larger
magnitudes are integral here and go through `int`), scientific below. The
shortest digits are found exactly: for each precision the two bracketing
decimals are tested by rounding them back. -/

/-- `10 ^ k` as a (numerator, denominator) pair over ℕ. -/
def pow10Frac (k : ℤ) : ℕ × ℕ :=
  if 0 ≤ k then (10 ^ k.toNat, 1) else (1, 10 ^ (-k).toNat)

/-- Largest decimal exponent `≤ hi` whose power of ten is `≤ num / den`,
found by fuelled descent (any positive double is at least `10 ^ -324`). -/
def dexpGo (num den : ℕ) : ℕ → ℤ → ℤ
  | 0, k => k
  | f + 1, k =>
    let p := pow10Frac k
    if p.1 * den ≤ num * p.2 then k else dexpGo num den f (k - 1)

/-- The decimal exponent of `num / den`: largest `k` with `10 ^ k ≤ num / den`. -/
def dexp (num den : ℕ) : ℤ := dexpGo num den 345 16

/-- The first `p` significant decimal digits of `num / den` (truncated), as a
number in `[10 ^ (p-1), 10 ^ p)`, for a value with decimal exponent `K`. -/
def sigDigits (num den : ℕ) (K : ℤ) (p : ℕ) : ℕ :=
  let t : ℤ := (p : ℤ) - 1 - K
  if 0 ≤ t then num * 10 ^ t.toNat / den else num / (den * 10 ^ (-t).toNat)

/-- Round the decimal `D * 10 ^ k` to the nearest double. -/
def roundSci (D : ℕ) (k : ℤ) : F64 :=
  if 0 ≤ k then roundPos (D * 10 ^ k.toNat) 1 else roundPos D (10 ^ (-k).toNat)

/-- Shortest round-trip digits of `x = num / den`: at each precision `p`
(from 1 up), test the two `p`-digit decimals bracketing `x`; keep the first
precision where one reads back to `x`, preferring the closer candidate and
breaking exact ties to the even digit string, as CPython's float repr does. -/
def reprSearch (num den : ℕ) (x : F64) (K : ℤ) : ℕ → ℕ → Option (ℕ × ℤ)
  | 0, _ => none
  | f + 1, p =>
    let k : ℤ := K - (p : ℤ) + 1
    let D0 := sigDigits num den K p
    let r1 := roundSci D0 k
    let r2 := roundSci (D0 + 1) k
    let nx := if 0 ≤ k then num else num * 10 ^ (-k).toNat
    let c1 := if 0 ≤ k then D0 * 10 ^ k.toNat * den else D0 * den
    let c2 := if 0 ≤ k then (D0 + 1) * 10 ^ k.toNat * den else (D0 + 1) * den
    let d1 := nx - c1
    let d2 := c2 - nx
    if r1 = x ∧ r2 = x then
      some (if d1 < d2 then (D0, k) else if d2 < d1 then (D0 + 1, k)
            else if D0 % 2 = 0 then (D0, k) else (D0 + 1, k))
    else if r1 = x then some (D0, k)
    else if r2 = x then some (D0 + 1, k)
    else reprSearch num den x K f (p + 1)

/-- Strip trailing decimal zeros from the digits, raising the exponent. -/
def stripTens : ℕ → ℕ → ℤ → ℕ × ℤ
  | 0, d, k => (d, k)
  | f + 1, d, k => if d % 10 = 0 ∧ d ≠ 0 then stripTens f (d / 10) (k + 1) else (d, k)

/-- A scientific-notation exponent, two digits minimum (`e-05`, `e-324`). -/
def sciExpChars (n : ℕ) : List Char :=
  if n < 10 then ['0', digitChar n] else natChars n

/-- Render the decimal `D0 * 10 ^ k0` the way CPython prints a nonintegral
float: fixed notation for decimal exponents `-4` and above, scientific with a
signed two-digit-minimum exponent below. -/
def renderDec (D0 : ℕ) (k0 : ℤ) : List Char :=
  let dk := stripTens D0 D0 k0
  let ds := natChars dk.1
  let q : ℤ := ds.length
  let E : ℤ := dk.2 + q - 1
  if E ≥ 0 then
    ds.take (E + 1).toNat ++ '.' :: ds.drop (E + 1).toNat
  else if E ≥ -4 then
    '0' :: '.' :: (List.replicate (-E - 1).toNat '0' ++ ds)
  else
    (ds.take 1 ++ (if ds.length > 1 then '.' :: ds.drop 1 else []))
      ++ 'e' :: '-' :: sciExpChars (-E).toNat

/-- Rendering of the summed quantity value: `total == int(total)` rebinds the
total to the arbitrary-precision integer and prints it in full; other finite
totals print as the float repr (shortest round-trip decimal). `int(total)`
on an infinite total raises OverflowError in the source; the embedding
renders the distinguished token "OverflowError" there instead of modelling
the exception channel (reachable only for quantity literals of hundreds of
digits). -/
def formatNum (x : F64) : List Char :=
  match x with
  | .inf => "OverflowError".data
  | .fin m e =>
    match F64.intVal (.fin m e) with
    | some n => natChars n
    | none =>
      let den := 2 ^ (-e).toNat
      let K := dexp m den
      match reprSearch m den (.fin m e) K 17 1 with
      | some dk => renderDec dk.1 dk.2
      | none => renderDec (m * 5 ^ (-e).toNat) e

/-- Rendering of one unit group: `f"{total}{spacer}{unit}"`, or just the
number when the unit is empty. -/
def renderGroup (total : F64) (unit : List Char) (sp : Bool) : List Char :=
  if unit.isEmpty then formatNum total
  else formatNum total ++ (if sp then [' '] else []) ++ unit

/-! ## `aggregate_quantities` (src/core/services/shopping.py lines 9-78) -/

/-- `by_unit[unit] += num`, with the unit's slot created at first occurrence
(capturing that occurrence's spacing preference), as in the source's two dicts. -/
def addGroup (acc : List (List Char × F64 × Bool)) (unit : List Char)
    (num : F64) (sp : Bool) : List (List Char × F64 × Bool) :=
  match acc with
  | [] => [(unit, num, sp)]
  | (u, t, s) :: rest =>
    if u = unit then (u, t + num, s) :: rest
    else (u, t, s) :: addGroup rest unit num sp

/-- One step of Python `collections.Counter`: increment in place or append. -/
def bump (acc : List (List Char × ℕ)) (q : List Char) : List (List Char × ℕ) :=
  match acc with
  | [] => [(q, 1)]
  | (k, c) :: rest =>
    if k = q then (k, c + 1) :: rest
    else (k, c) :: bump rest q

/-- One step of the source's grouping loop over the parsed list (the `none`
arm is unreachable in the branch where it runs). -/
def groupStep (acc : List (List Char × F64 × Bool)) :
    Option (F64 × List Char × Bool) → List (List Char × F64 × Bool)
  | some p => addGroup acc p.2.1 p.1 p.2.2
  | none => acc

/-- The body of `aggregate_quantities` on character lists. -/
def aggregateCore (qs : List (List Char)) : List Char :=
  match qs with
  | [] => []
  | [q] => q
  | _ =>
    let parsed := qs.map parseQ
    if parsed.all Option.isSome then
      let groups := parsed.foldl groupStep []
      List.intercalate [' ', '+', ' '] (groups.map (fun g => renderGroup g.2.1 g.1 g.2.2))
    else
      List.intercalate [',', ' '] ((qs.foldl bump []).map (fun p =>
        if p.2 > 1 then p.1 ++ ' ' :: '×' :: natChars p.2 else p.1))

/-- `aggregate_quantities` (src/core/services/shopping.py lines 9-78): merge a
list of quantity strings into one readable string. -/
def aggregate_quantities (qs : List String) : String :=
  ⟨aggregateCore (qs.map String.data)⟩

/-! ## The spec's reference description of the aggregator (spec.md §4.1)

The reference is written the way the spec words it: group by exact trimmed
unit over the parsed list (first-occurrence order, sums by filtering), or
frequency-count the raw strings when any element fails to parse. -/

/-- First-occurrence deduplication (the spec's "each distinct string"). -/
def dedupFirst [DecidableEq α] : List α → List α
  | [] => []
  | x :: xs => x :: dedupFirst (xs.filter (fun y => y ≠ x))
  termination_by l => l.length
  decreasing_by
    exact Nat.lt_succ_of_le (List.length_filter_le _ _)

/-- The sum of a unit group's float values in occurrence order: the slot is
created holding the first value (`0 + v` is exact for floats) and each later
value is added with one float addition. -/
def gsum (vs : List F64) : F64 :=
  match vs with
  | [] => .fin 0 (-1074)
  | v :: t => t.foldl F64.add v

/-- `some` of the list of values when every element is `some`, else `none`. -/
def allSome {α : Type} : List (Option α) → Option (List α)
  | [] => some []
  | none :: _ => none
  | some a :: t => (allSome t).map (a :: ·)

/-- Reference aggregation following the spec's words: empty input gives the
empty string; a single input is returned unchanged; if every element parses,
group by exact trimmed unit text in first-occurrence order, sum each group,
reuse the first occurrence's spacing, and join groups with " + "; otherwise
frequency-count the raw strings, rendering duplicates as "(text) ×(count)"
joined with ", ". -/
def aggregateRef (qs : List (List Char)) : List Char :=
  match qs with
  | [] => []
  | [q] => q
  | _ =>
    match allSome (qs.map parseQ) with
    | some ps =>
      let units := dedupFirst (ps.map (fun p => p.2.1))
      List.intercalate [' ', '+', ' '] (units.map (fun u =>
        let grp := ps.filter (fun p => p.2.1 = u)
        let total := gsum (grp.map (fun p => p.1))
        let sp := ((grp.head?).map (fun p => p.2.2)).getD false
        renderGroup total u sp))
    | none =>
      let keys := dedupFirst qs
      List.intercalate [',', ' '] (keys.map (fun q =>
        let c := qs.count q
        if c > 1 then q ++ ' ' :: '×' :: natChars c else q))

/-- The reference aggregator on strings. -/
def aggregate_quantities_ref (qs : List String) : String :=
  ⟨aggregateRef (qs.map String.data)⟩

/-- The summary the spec describes for one unit group. -/
def groupEntry (ps : List (F64 × List Char × Bool)) (u : List Char) :
    List Char × F64 × Bool :=
  (u, gsum ((ps.filter (fun p => p.2.1 = u)).map (fun p => p.1)),
      (((ps.filter (fun p => p.2.1 = u)).head?).map (fun p => p.2.2)).getD false)

/-! ## Data model (core/models.py)

Records are embedded as plain structures; database primary keys are the `id`
fields (`0` is reserved: Django never assigns it, and the source's truthiness
test `if item.ingredient_id` treats it as absent). -/

/-- ShoppingCategory: unique name, used for grouping and ordering. -/
structure Category where
  id : ℕ
  name : String
deriving DecidableEq

/-- Ingredient: category is required (PROTECT), `is_pantry_staple` feeds the
shopping-list pantry flag. -/
structure Ingredient where
  id : ℕ
  name : String
  category : Category
  isPantryStaple : Bool
deriving DecidableEq

/-- RecipeIngredient join row: free-text quantity. -/
structure RecipeIngredient where
  ingredient : Ingredient
  quantity : String
deriving DecidableEq

/-- Recipe: meal type id drives shuffle diversity; archived recipes are
excluded from the shuffle catalog. -/
structure Recipe where
  mealTypeId : ℕ
  name : String
  isArchived : Bool
  recipeIngredients : List RecipeIngredient
deriving DecidableEq

/-- PlannedMeal: one day slot of a week plan. `isPinned` is modelled from the
spec: the field is referenced by src/core/services/shuffle.py and its tests,
but its declaration is not in src/core/models.py; the spec defines it as a
boolean protecting the meal from shuffle, false for freshly created meals. -/
structure PlannedMeal where
  dayOffset : ℕ
  recipe : Option Recipe
  isSupplementary : Bool
  isPinned : Bool
deriving DecidableEq

/-- WeekPlan: its planned meals, in primary-key order. -/
structure WeekPlan where
  plannedMeals : List PlannedMeal
deriving DecidableEq

/-- ShoppingListItem. -/
structure SItem where
  ingredient : Option Ingredient
  name : String
  category : Option Category
  quantities : String
  isChecked : Bool
  isManual : Bool
  isPantryOverride : Bool
  isPantryItem : Bool
  isStarred : Bool
deriving DecidableEq

/-- Store: its category ordering map (category id → sort order), unique per
category. -/
structure Store where
  categoryOrders : List (ℕ × ℕ)
deriving DecidableEq

/-! ## Ordered-dict and stable-sort machinery -/

/-- Python dict assignment `d[k] = v`: overwrite in place, else append. -/
def dinsert {κ ν : Type} [DecidableEq κ] (k : κ) (v : ν) :
    List (κ × ν) → List (κ × ν)
  | [] => [(k, v)]
  | (k', v') :: t => if k' = k then (k, v) :: t else (k', v') :: dinsert k v t

/-- Stable insertion w.r.t. a total boolean preorder `le`: the new element
goes after every element that compares `le` to it. -/
def insertLe {α : Type} (le : α → α → Bool) (x : α) : List α → List α
  | [] => [x]
  | a :: t => if le a x then a :: insertLe le x t else x :: a :: t

/-- Stable sort (insertion sort), the ordering semantics of Python `sorted`
and SQL ORDER BY: ties keep their input order. -/
def stableSortBy {α : Type} (le : α → α → Bool) (l : List α) : List α :=
  l.foldl (fun acc x => insertLe le x acc) []

/-- Byte-order comparison of strings (SQLite BINARY collation). -/
def leChars : List Char → List Char → Bool
  | [], _ => true
  | _ :: _, [] => false
  | a :: as, b :: bs =>
    if a.toNat < b.toNat then true
    else if b.toNat < a.toNat then false
    else leChars as bs

/-- SQL ascending order on a nullable id column: NULLs first. -/
def leOptNat : Option ℕ → Option ℕ → Bool
  | none, _ => true
  | some _, none => false
  | some a, some b => a ≤ b

/-- The item's category id as the database sees it. -/
def itemCatId (it : SItem) : Option ℕ := it.category.map (fun c => c.id)

/-- ShoppingListItem Meta ordering ["shopping_list", "category", "name"]:
category id ascending with NULLs first, then name in byte order, ties in
primary-key order (stable). -/
def metaLe (x y : SItem) : Bool :=
  if itemCatId x = itemCatId y then leChars x.name.data y.name.data
  else leOptNat (itemCatId x) (itemCatId y)

/-- The queryset `shopping_list.items.all()` with positions: items enumerated
in primary-key order, then stably sorted by the model's Meta ordering. -/
def fetchOrder (items : List SItem) : List (ℕ × SItem) :=
  stableSortBy (fun a b => metaLe a.2 b.2) items.enum

/-! ## `generate_shopping_list` (src/core/services/shopping.py lines 81-269) -/

/-- `existing_items = {item.ingredient_id: item for item in
items.filter(ingredient__isnull=False) ... if item.ingredient_id}`; the
value keeps the item's position so in-place mutation can be applied. -/
def buildExisting (items : List SItem) : List (ℕ × ℕ × SItem) :=
  (fetchOrder items).foldl (fun d ji =>
    match ji.2.ingredient with
    | some ing => if ing.id = 0 then d else dinsert ing.id (ji.1, ji.2) d
    | none => d) []

/-- PlannedMeal Meta ordering ["week_plan", "day_offset", "is_supplementary"]. -/
def pmLe (x y : PlannedMeal) : Bool :=
  if x.dayOffset = y.dayOffset then !x.isSupplementary || y.isSupplementary
  else x.dayOffset ≤ y.dayOffset

/-- RecipeIngredient Meta ordering ["ingredient__name"]. -/
def riLe (x y : RecipeIngredient) : Bool :=
  leChars x.ingredient.name.data y.ingredient.name.data

/-- One slot of `ingredient_quantities`: the ingredient object and pantry flag
captured at first occurrence, quantities appended per occurrence. -/
structure IngData where
  ingredient : Ingredient
  quantities : List String
  isPantry : Bool
deriving DecidableEq

/-- `ingredient_quantities[ing.id]` accumulation. -/
def addQty (acc : List (ℕ × IngData)) (ing : Ingredient) (q : String) :
    List (ℕ × IngData) :=
  match acc with
  | [] => [(ing.id, ⟨ing, [q], ing.isPantryStaple⟩)]
  | (k, d) :: t =>
    if k = ing.id then (k, ⟨d.ingredient, d.quantities ++ [q], d.isPantry⟩) :: t
    else (k, d) :: addQty t ing q

/-- Collect every ingredient's quantity texts across all planned meals of the
plan (primary and supplementary), in queryset iteration order. -/
def collect (wp : WeekPlan) : List (ℕ × IngData) :=
  (stableSortBy pmLe wp.plannedMeals).foldl (fun acc pm =>
    match pm.recipe with
    | none => acc
    | some r => (stableSortBy riLe r.recipeIngredients).foldl
        (fun acc ri => addQty acc ri.ingredient ri.quantity) acc) []

/-- The change report. -/
structure Changes where
  updated : List (String × String × String)
  added : List (String × String)
  removed : List (String × String)
  counts : ℕ × ℕ × ℕ
deriving DecidableEq

/-- A freshly created ShoppingListItem (model defaults for the rest). -/
def mkItem (ing : Ingredient) (aggregated : String) (isPantry : Bool) : SItem :=
  { ingredient := some ing, name := ing.name, category := some ing.category,
    quantities := aggregated, isChecked := false, isManual := false,
    isPantryOverride := false, isPantryItem := isPantry, isStarred := false }

/-- Mutable state of the create-or-update loop. -/
structure GenState where
  updates : List (ℕ × SItem)
  creates : List SItem
  changes : Changes
deriving DecidableEq

/-- The body of the create-or-update loop for one collected ingredient. -/
def processOne (replace return_changes : Bool)
    (existing : List (ℕ × ℕ × SItem)) (old : List (ℕ × String × String))
    (st : GenState) (e : ℕ × IngData) : GenState :=
  let ing := e.2.ingredient
  let aggregated := aggregate_quantities e.2.quantities
  let existing_item := existing.lookup e.1
  let was_in_old := if replace then (old.lookup e.1).isSome else false
  if existing_item.isSome ∧ ¬replace then
    match existing_item with
    | some ji =>
      let it := ji.2
      let augmented := aggregate_quantities [it.quantities, aggregated]
      let newPantry :=
        if ¬it.isManual ∧ ¬it.isPantryOverride then e.2.isPantry else it.isPantryItem
      { st with updates := st.updates ++
          [(ji.1, { it with quantities := augmented, isPantryItem := newPantry })] }
    | none => st
  else if replace ∧ was_in_old ∧ return_changes then
    let st1 :=
      match old.lookup e.1 with
      | some nmq =>
        if nmq.2 ≠ aggregated then
          { st with changes := { st.changes with
              updated := dinsert ing.name (nmq.2, aggregated) st.changes.updated } }
        else st
      | none => st
    { st1 with creates := st1.creates ++ [mkItem ing aggregated e.2.isPantry] }
  else
    let st1 := { st with creates := st.creates ++ [mkItem ing aggregated e.2.isPantry] }
    if return_changes ∧ ¬was_in_old then
      { st1 with changes := { st1.changes with
          added := dinsert ing.name aggregated st1.changes.added } }
    else st1

/-- Apply the in-place mutations recorded against item positions. -/
def applyUpdates (items : List SItem) (ups : List (ℕ × SItem)) : List SItem :=
  items.enum.map (fun ji =>
    match ups.lookup ji.1 with
    | some it => it
    | none => ji.2)

/-- Track removed items: old non-manual entries whose ingredient is no longer
collected. -/
def addRemoved (changes : Changes) (old : List (ℕ × String × String))
    (collected : List (ℕ × IngData)) : Changes :=
  old.foldl (fun ch e =>
    if (collected.lookup e.1).isSome then ch
    else { ch with removed := dinsert e.2.1 e.2.2 ch.removed }) changes

/-- `generate_shopping_list` on the target list's items: returns the item
list after the call and the change report (meaningful when `return_changes`
is true; `counts` is only recomputed in replace mode, as in the source). -/
def generate_shopping_list (wp : WeekPlan) (items : List SItem)
    (replace return_changes : Bool) : List SItem × Changes :=
  let existingAll := buildExisting items
  let old_items : List (ℕ × String × String) :=
    if return_changes ∧ replace then
      (existingAll.filter (fun e => ¬e.2.2.isManual)).map
        (fun e => (e.1, e.2.2.name, e.2.2.quantities))
    else []
  let existing := if replace then [] else existingAll
  let survivors := if replace then items.filter (fun it => it.isManual) else items
  let collected := collect wp
  let st0 : GenState := ⟨[], [], ⟨[], [], [], (0, 0, 0)⟩⟩
  let st := collected.foldl (processOne replace return_changes existing old_items) st0
  let changes :=
    if return_changes ∧ replace then
      let ch := addRemoved st.changes old_items collected
      { ch with counts := (ch.updated.length, ch.added.length, ch.removed.length) }
    else st.changes
  ((if replace then survivors else applyUpdates items st.updates) ++ st.creates, changes)

/-! ## `format_regeneration_message` (src/core/services/shopping.py lines 272-312) -/

/-- Python `str(int)` for naturals. -/
def natStr (n : ℕ) : String := ⟨natChars n⟩

/-- Format the change report into the user-facing one-line message. -/
def format_regeneration_message (c : Changes) : String :=
  let updated := c.counts.1
  let added := c.counts.2.1
  let removed := c.counts.2.2
  if updated = 0 ∧ added = 0 ∧ removed = 0 then
    "Shopping list regenerated: no changes needed"
  else
    let updated_strings :=
      (c.updated.take 3).map (fun e => e.1 ++ ": " ++ e.2.1 ++ " → " ++ e.2.2)
    let parts1 : List String :=
      if updated > 0 then
        (if updated_strings.length > 0 then [String.intercalate ", " updated_strings]
         else [])
        ++ (if updated > 3 then [natStr (updated - 3) ++ " more"] else [])
      else []
    let summary_parts : List String :=
      (if added > 0 then [natStr added ++ " added"] else []) ++
      (if removed > 0 then [natStr removed ++ " removed"] else [])
    let parts := parts1 ++
      (if summary_parts.isEmpty then []
       else ["(" ++ String.intercalate ", " summary_parts ++ ")"])
    "Shopping list regenerated: " ++ String.intercalate " " parts

/-- The amended claim's reference rendering of the change report: the
"Shopping list regenerated: " prefix on every message; "no changes needed"
when all counts are zero; otherwise the first 3 updated entries as
"Name: old → new" joined with ", ", then "N more" when more than 3 were
updated, then a parenthesized clause listing "X added" and/or "Y removed"
for the nonzero counts only; segments space-joined. -/
def format_regeneration_message_ref (c : Changes) : String :=
  let updated := c.counts.1
  let added := c.counts.2.1
  let removed := c.counts.2.2
  "Shopping list regenerated: " ++
    (if updated = 0 ∧ added = 0 ∧ removed = 0 then "no changes needed"
     else String.intercalate " "
      ((if updated > 0 ∧ c.updated ≠ [] then
          [String.intercalate ", "
            ((c.updated.take 3).map (fun e => e.1 ++ ": " ++ e.2.1 ++ " → " ++ e.2.2))]
        else [])
      ++ (if updated > 3 then [natStr (updated - 3) ++ " more"] else [])
      ++ (if added > 0 ∨ removed > 0 then
            ["(" ++ String.intercalate ", "
              ((if added > 0 then [natStr added ++ " added"] else []) ++
               (if removed > 0 then [natStr removed ++ " removed"] else [])) ++ ")"]
          else [])))

/-! ## `get_sorted_items` (src/core/services/shopping.py lines 315-354) -/

/-- `sort_key`: rank of an item's category in the store order, 999 sentinel
for unmapped categories and for items with no category. -/
def itemRank (corder : List (ℕ × ℕ)) (it : SItem) : ℕ :=
  match it.category with
  | some c => (corder.lookup c.id).getD 999
  | none => 999

/-- Python `str.lower()` on one character (ASCII range). -/
def lowerChar (c : Char) : Char :=
  if 'A' ≤ c ∧ c ≤ 'Z' then Char.ofNat (c.toNat + 32) else c

/-- The display sort: (is_checked asc, category rank asc, lowercased name
asc), ties in queryset order. -/
def sortKeyLe (corder : List (ℕ × ℕ)) (x y : SItem) : Bool :=
  if x.isChecked = y.isChecked then
    if itemRank corder x = itemRank corder y then
      leChars (x.name.data.map lowerChar) (y.name.data.map lowerChar)
    else itemRank corder x ≤ itemRank corder y
  else !x.isChecked

/-- One display bucket of `get_sorted_items`. -/
structure Bucket where
  order : ℕ
  citems : List SItem
  category : Option Category
deriving DecidableEq

/-- `cat_name`: the item's category name, "Other" for no category. -/
def runName (it : SItem) : String :=
  match it.category with
  | some c => c.name
  | none => "Other"

/-- `cat_order`: the store rank looked up by `cat_id` (0 stands in for no
category), 999 sentinel. -/
def catOrderOf (corder : List (ℕ × ℕ)) (it : SItem) : ℕ :=
  (corder.lookup (match it.category with | some c => c.id | none => 0)).getD 999

/-- Insertion step of the grouping dict: append to the named bucket in place,
else create it at the end. -/
def groupUpsert (catName : String) (catOrder : ℕ) (cat : Option Category)
    (it : SItem) : List (String × Bucket) → List (String × Bucket)
  | [] => [(catName, ⟨catOrder, [it], cat⟩)]
  | (nm, b) :: t =>
    if nm = catName then (nm, ⟨b.order, b.citems ++ [it], b.category⟩) :: t
    else (nm, b) :: groupUpsert catName catOrder cat it t

/-- `grouped[cat_name]` accumulation: first occurrence fixes order and
category; items appended in sorted order. -/
def addToGroup (corder : List (ℕ × ℕ)) (acc : List (String × Bucket)) (it : SItem) :
    List (String × Bucket) :=
  groupUpsert (runName it) (catOrderOf corder it) it.category it acc

/-- `get_sorted_items`: sort items by the display key, group by category name
into buckets, and return buckets sorted by their order value. -/
def get_sorted_items (store : Option Store) (items : List SItem) :
    List (String × Bucket) :=
  let corder := match store with | some st => st.categoryOrders | none => []
  let dbItems := (fetchOrder items).map (fun ji => ji.2)
  let sorted_items := stableSortBy (sortKeyLe corder) dbItems
  let grouped := sorted_items.foldl (addToGroup corder) []
  stableSortBy (fun a b => a.2.order ≤ b.2.order) grouped

/-- The claim's consecutive grouping: maximal runs of equal category name in
the sorted item sequence. -/
def consecutiveGroups : List SItem → List (String × List SItem)
  | [] => []
  | it :: t =>
    match consecutiveGroups t with
    | [] => [(runName it, [it])]
    | (nm, grp) :: rest =>
      if nm = runName it then (nm, it :: grp) :: rest
      else (runName it, [it]) :: (nm, grp) :: rest

/-- The presenter as the claim words it: consecutive same-category-name items
become separate buckets. -/
def get_sorted_items_claim (store : Option Store) (items : List SItem) :
    List (String × Bucket) :=
  let corder := match store with | some st => st.categoryOrders | none => []
  let dbItems := (fetchOrder items).map (fun ji => ji.2)
  let sorted_items := stableSortBy (sortKeyLe corder) dbItems
  let groups := (consecutiveGroups sorted_items).map (fun g =>
    (g.1, (⟨((g.2.head?.map (catOrderOf corder)).getD 999), g.2,
           (g.2.head?.map (fun it => it.category)).getD none⟩ : Bucket)))
  stableSortBy (fun a b => a.2.order ≤ b.2.order) groups

/-- The amended reference bucket for one category name: all sorted items with
that name, rank and category from the first of them. -/
def bucketEntry (corder : List (ℕ × ℕ)) (l : List SItem) (nm : String) :
    String × Bucket :=
  (nm, ⟨(((l.filter (fun it => runName it = nm)).head?.map (catOrderOf corder)).getD 999),
        l.filter (fun it => runName it = nm),
        (((l.filter (fun it => runName it = nm)).head?.map (fun it => it.category)).getD none)⟩)

/-- The amended reference presenter: buckets keyed by category name in
first-occurrence order over the sorted items, each holding all items of that
name, stably sorted by rank. -/
def get_sorted_items_ref (store : Option Store) (items : List SItem) :
    List (String × Bucket) :=
  let corder := match store with | some st => st.categoryOrders | none => []
  let dbItems := (fetchOrder items).map (fun ji => ji.2)
  let sorted_items := stableSortBy (sortKeyLe corder) dbItems
  let buckets := (dedupFirst (sorted_items.map runName)).map
    (bucketEntry corder sorted_items)
  stableSortBy (fun a b => a.2.order ≤ b.2.order) buckets

/-! ## `shuffle_meals` (src/core/services/shuffle.py) -/

/-- `recipes_by_type`: for each meal type (in `MealType.objects.all()` order)
the active recipes of that type, omitted when empty. -/
def buildCatalog (mealTypeIds : List ℕ) (recipes : List Recipe) :
    List (ℕ × List Recipe) :=
  mealTypeIds.foldl (fun acc mt =>
    let rs := recipes.filter (fun r => r.mealTypeId = mt ∧ ¬r.isArchived)
    if rs.isEmpty then acc else dinsert mt rs acc) []

/-- The day loop of `shuffle_meals`. Returns (created meals, returned list,
completed-without-exception). `rng` is the random oracle, consumed twice per
unpinned day (type choice, then recipe choice); a pinned meal without a
recipe raises in the source, modelled by the `false` flag with the partial
creations kept. -/
def shuffleGo (catalog : List (ℕ × List Recipe)) (pinned : List PlannedMeal)
    (rng : ℕ → ℕ) : List ℕ → Option ℕ → ℕ →
    List PlannedMeal × List PlannedMeal × Bool
  | [], _, _ => ([], [], true)
  | d :: ds, prev, ctr =>
    match pinned.find? (fun pm => pm.dayOffset = d) with
    | some pm =>
      match pm.recipe with
      | none => ([], [], false)
      | some r =>
        let res := shuffleGo catalog pinned rng ds (some r.mealTypeId) ctr
        (res.1, pm :: res.2.1, res.2.2)
    | none =>
      let keys := catalog.map (fun e => e.1)
      let avail0 :=
        match prev with
        | some p => keys.filter (fun t => t ≠ p)
        | none => keys
      let avail := if avail0.isEmpty then keys else avail0
      if avail.isEmpty then ([], [], false)
      else
        let typeId := avail.getD (rng ctr % avail.length) 0
        let rs := (catalog.lookup typeId).getD []
        if rs.isEmpty then ([], [], false)
        else
          let recipe := rs.getD (rng (ctr + 1) % rs.length) ⟨0, "", false, []⟩
          let pmNew : PlannedMeal := ⟨d, some recipe, false, false⟩
          let res := shuffleGo catalog pinned rng ds (some typeId) (ctr + 2)
          (pmNew :: res.1, pmNew :: res.2.1, res.2.2)

/-- `shuffle_meals`: preserve pinned primary meals, delete unpinned primary
meals, then fill days 0..numDays-1. Returns the plan state after the call,
the returned meal list, and the completed flag. -/
def shuffle_meals (mealTypeIds : List ℕ) (recipes : List Recipe) (wp : WeekPlan)
    (numDays : ℕ) (rng : ℕ → ℕ) : WeekPlan × List PlannedMeal × Bool :=
  let pinned := wp.plannedMeals.filter (fun pm => !pm.isSupplementary && pm.isPinned)
  let remaining := wp.plannedMeals.filter (fun pm => !(!pm.isSupplementary && !pm.isPinned))
  let catalog := buildCatalog mealTypeIds recipes
  if catalog.isEmpty then (⟨remaining⟩, [], true)
  else
    let res := shuffleGo catalog pinned rng (List.range numDays) none 0
    (⟨remaining ++ res.1⟩, res.2.1, res.2.2)

/-- The meal-type id of a planned meal's recipe, when it has one
(`pm.recipe.meal_type.id`). -/
def pmTypeId (pm : PlannedMeal) : Option ℕ := pm.recipe.map Recipe.mealTypeId

/-- The fields of a shopping-list item the augment-mode update leaves intact:
everything except the quantity text, and also the pantry flag whenever the
stored item is manual. -/
def itemFrame (a b : SItem) : Prop :=
  b.ingredient = a.ingredient ∧ b.name = a.name ∧ b.category = a.category ∧
  b.isManual = a.isManual ∧ b.isChecked = a.isChecked ∧
  b.isPantryOverride = a.isPantryOverride ∧ b.isStarred = a.isStarred ∧
  (a.isManual = true → b.isPantryItem = a.isPantryItem)

/-! ### Association-list lemmas for the grouping folds -/

theorem mem_dedupFirst [DecidableEq α] {x : α} {l : List α} :
    x ∈ dedupFirst l ↔ x ∈ l := by
  induction l using dedupFirst.induct with
  | case1 => simp [dedupFirst]
  | case2 a xs ih =>
    simp only [dedupFirst, List.mem_cons, ih, List.mem_filter]
    by_cases hxa : x = a
    · simp [hxa]
    · simp [hxa]

theorem nodup_dedupFirst [DecidableEq α] (l : List α) : (dedupFirst l).Nodup := by
  induction l using dedupFirst.induct with
  | case1 => simp [dedupFirst]
  | case2 a xs ih =>
    simp only [dedupFirst, List.nodup_cons]
    refine ⟨fun hmem => ?_, ih⟩
    have := mem_dedupFirst.mp hmem
    simp [List.mem_filter] at this

theorem dedupFirst_append_singleton [DecidableEq α] (l : List α) (x : α) :
    dedupFirst (l ++ [x]) =
      if x ∈ l then dedupFirst l else dedupFirst l ++ [x] := by
  induction l using dedupFirst.induct with
  | case1 => simp [dedupFirst]
  | case2 a xs ih =>
    by_cases hxa : x = a
    · subst hxa
      simp [dedupFirst, List.filter_append, List.mem_cons]
    · have hfil : (xs ++ [x]).filter (fun y => y ≠ a) =
          xs.filter (fun y => y ≠ a) ++ [x] := by
        simp [List.filter_append, hxa]
      have hmemf : (x ∈ xs.filter (fun y => y ≠ a)) ↔ x ∈ xs := by
        simp [List.mem_filter, hxa]
      simp only [List.cons_append, dedupFirst, hfil, ih, hmemf, List.mem_cons, hxa,
        false_or]
      by_cases hx : x ∈ xs <;> simp [hx]

theorem allSome_eq_some {α : Type} {l : List (Option α)} {ps : List α}
    (h : allSome l = some ps) : l = ps.map some := by
  induction l generalizing ps with
  | nil =>
    simp only [allSome, Option.some.injEq] at h
    simp [← h]
  | cons o t ih =>
    match o with
    | none => simp [allSome] at h
    | some a =>
      simp only [allSome, Option.map_eq_some'] at h
      obtain ⟨x, hx, hps⟩ := h
      simp [← hps, ih hx]

theorem allSome_isSome {α : Type} {l : List (Option α)}
    (h : l.all Option.isSome = true) : ∃ ps, allSome l = some ps := by
  induction l with
  | nil => exact ⟨[], rfl⟩
  | cons o t ih =>
    simp only [List.all_cons, Bool.and_eq_true] at h
    obtain ⟨ps, hps⟩ := ih h.2
    match o, h.1 with
    | some a, _ => exact ⟨a :: ps, by simp [allSome, hps]⟩

theorem allSome_none {α : Type} {l : List (Option α)}
    (h : ¬ l.all Option.isSome = true) : allSome l = none := by
  induction l with
  | nil => simp at h
  | cons o t ih =>
    simp only [List.all_cons, Bool.and_eq_true, not_and_or] at h
    match o with
    | none => rfl
    | some a =>
      have hnt : ¬ t.all Option.isSome = true := by
        rcases h with h | h
        · simp at h
        · exact h
      simp [allSome, ih hnt]

theorem addGroup_of_forall_ne {L : List (List Char × F64 × Bool)} {u : List Char}
    (h : ∀ e ∈ L, e.1 ≠ u) (n : F64) (s : Bool) :
    addGroup L u n s = L ++ [(u, n, s)] := by
  induction L with
  | nil => rfl
  | cons e t ih =>
    obtain ⟨u', t', s'⟩ := e
    have hne : u' ≠ u := h (u', t', s') (List.mem_cons_self _ _)
    simp only [addGroup, if_neg hne, List.cons_append, List.cons.injEq, true_and]
    exact ih (fun e he => h e (by simp [he]))

theorem addGroup_append_found {L1 L2 : List (List Char × F64 × Bool)}
    {u : List Char} {t : F64} {s : Bool} (h : ∀ e ∈ L1, e.1 ≠ u) (n : F64) (s' : Bool) :
    addGroup (L1 ++ (u, t, s) :: L2) u n s' = L1 ++ (u, t + n, s) :: L2 := by
  induction L1 with
  | nil => simp [addGroup]
  | cons e t1 ih =>
    obtain ⟨u', t', s''⟩ := e
    have hne : u' ≠ u := h (u', t', s'') (List.mem_cons_self _ _)
    simp only [List.cons_append, addGroup, if_neg hne, List.cons.injEq, true_and]
    exact ih (fun e he => h e (by simp [he]))

theorem bump_of_forall_ne {L : List (List Char × ℕ)} {q : List Char}
    (h : ∀ e ∈ L, e.1 ≠ q) : bump L q = L ++ [(q, 1)] := by
  induction L with
  | nil => rfl
  | cons e t ih =>
    obtain ⟨k, c⟩ := e
    have hne : k ≠ q := h (k, c) (List.mem_cons_self _ _)
    simp only [bump, if_neg hne, List.cons_append, List.cons.injEq, true_and]
    exact ih (fun e he => h e (by simp [he]))

theorem bump_append_found {L1 L2 : List (List Char × ℕ)} {q : List Char} {c : ℕ}
    (h : ∀ e ∈ L1, e.1 ≠ q) :
    bump (L1 ++ (q, c) :: L2) q = L1 ++ (q, c + 1) :: L2 := by
  induction L1 with
  | nil => simp [bump]
  | cons e t1 ih =>
    obtain ⟨k, c'⟩ := e
    have hne : k ≠ q := h (k, c') (List.mem_cons_self _ _)
    simp only [List.cons_append, bump, if_neg hne, List.cons.injEq, true_and]
    exact ih (fun e he => h e (by simp [he]))

/-- The source's grouping fold computes exactly the spec's per-unit summary in
first-occurrence order. -/
theorem gsum_append {vs : List F64} (hne : vs ≠ []) (w : F64) :
    gsum (vs ++ [w]) = gsum vs + w := by
  match vs with
  | v :: t => simp [gsum, List.foldl_append, F64.add_def]

theorem foldl_addGroup_eq (ps : List (F64 × List Char × Bool)) :
    ps.foldl (fun acc p => addGroup acc p.2.1 p.1 p.2.2) [] =
      (dedupFirst (ps.map (fun p => p.2.1))).map (groupEntry ps) := by
  induction ps using List.reverseRecOn with
  | nil => simp [dedupFirst]
  | append_singleton ps p ih =>
    rw [List.foldl_append, List.foldl_cons, List.foldl_nil, ih]
    have hmapu : (ps ++ [p]).map (fun p => p.2.1) = ps.map (fun p => p.2.1) ++ [p.2.1] := by
      simp
    by_cases hmem : p.2.1 ∈ ps.map (fun p => p.2.1)
    · have hkey : p.2.1 ∈ dedupFirst (ps.map (fun p => p.2.1)) := mem_dedupFirst.mpr hmem
      obtain ⟨k1, k2, hsplit⟩ := List.append_of_mem hkey
      have hnodup : (k1 ++ p.2.1 :: k2).Nodup := by
        rw [← hsplit]; exact nodup_dedupFirst _
      have hnotmem : p.2.1 ∉ k1 ∧ p.2.1 ∉ k2 := by
        rw [List.nodup_middle, List.nodup_cons, List.mem_append] at hnodup
        exact ⟨fun h => hnodup.1 (Or.inl h), fun h => hnodup.1 (Or.inr h)⟩
      have hfil : ∀ u, u ≠ p.2.1 →
          (ps ++ [p]).filter (fun q => q.2.1 = u) = ps.filter (fun q => q.2.1 = u) := by
        intro u hu
        rw [List.filter_append]
        have hone : [p].filter (fun q => q.2.1 = u) = [] := by
          simp [List.filter_cons, Ne.symm hu]
        simp [hone]
      have hentry : ∀ u, u ≠ p.2.1 → groupEntry (ps ++ [p]) u = groupEntry ps u := by
        intro u hu
        simp [groupEntry, hfil u hu]
      have hfilp : (ps ++ [p]).filter (fun q => q.2.1 = p.2.1) =
          ps.filter (fun q => q.2.1 = p.2.1) ++ [p] := by
        rw [List.filter_append]
        simp [List.filter_cons]
      have hfne : ps.filter (fun q => q.2.1 = p.2.1) ≠ [] := by
        obtain ⟨q, hq, hqu⟩ := List.exists_of_mem_map hmem
        intro hnil
        have hqin : q ∈ ps.filter (fun q => q.2.1 = p.2.1) :=
          List.mem_filter.mpr ⟨hq, by simp [hqu]⟩
        simp [hnil] at hqin
      obtain ⟨q0, rest, hq0⟩ := List.exists_cons_of_ne_nil hfne
      have hdedup : dedupFirst ((ps ++ [p]).map (fun p => p.2.1)) =
          k1 ++ p.2.1 :: k2 := by
        rw [hmapu, dedupFirst_append_singleton, if_pos hmem, hsplit]
      have hforall : ∀ e ∈ k1.map (groupEntry ps), e.1 ≠ p.2.1 := by
        intro e he
        obtain ⟨u, hu, hue⟩ := List.exists_of_mem_map he
        rw [← hue]
        intro hcontra
        exact hnotmem.1 (hcontra ▸ hu)
      rw [hsplit, hdedup]
      rw [List.map_append, List.map_cons, List.map_append, List.map_cons]
      have hge : groupEntry ps p.2.1 =
          (p.2.1, gsum ((ps.filter (fun q => q.2.1 = p.2.1)).map (fun p => p.1)),
            (((ps.filter (fun q => q.2.1 = p.2.1)).head?).map (fun p => p.2.2)).getD false) := rfl
      rw [hge, addGroup_append_found hforall]
      congr 1
      · exact (List.map_congr_left (fun u hu => (hentry u (fun h =>
          hnotmem.1 (h ▸ hu))).symm))
      congr 1
      · simp only [groupEntry, hfilp, hq0]
        simp [gsum, List.foldl_append, F64.add_def]
      · exact (List.map_congr_left (fun u hu => (hentry u (fun h =>
          hnotmem.2 (h ▸ hu))).symm))
    · have hdedup : dedupFirst ((ps ++ [p]).map (fun p => p.2.1)) =
          dedupFirst (ps.map (fun p => p.2.1)) ++ [p.2.1] := by
        rw [hmapu, dedupFirst_append_singleton, if_neg hmem]
      have hforall : ∀ e ∈ (dedupFirst (ps.map (fun p => p.2.1))).map (groupEntry ps),
          e.1 ≠ p.2.1 := by
        intro e he
        obtain ⟨u, hu, hue⟩ := List.exists_of_mem_map he
        rw [← hue]
        intro hcontra
        exact hmem (hcontra ▸ mem_dedupFirst.mp hu)
      rw [addGroup_of_forall_ne hforall, hdedup, List.map_append, List.map_singleton]
      congr 1
      · refine List.map_congr_left (fun u hu => ?_)
        have hune : u ≠ p.2.1 := fun h => hmem (h ▸ mem_dedupFirst.mp hu)
        have hfil : (ps ++ [p]).filter (fun q => q.2.1 = u) =
            ps.filter (fun q => q.2.1 = u) := by
          rw [List.filter_append]
          have hone : [p].filter (fun q => q.2.1 = u) = [] := by
            simp [List.filter_cons, Ne.symm hune]
          simp [hone]
        simp [groupEntry, hfil]
      · have hfilnil : ps.filter (fun q => q.2.1 = p.2.1) = [] := by
          rw [List.filter_eq_nil_iff]
          intro q hq
          simp only [decide_eq_true_eq]
          intro hqu
          exact hmem (List.mem_map.mpr ⟨q, hq, hqu⟩)
        have hfilp : (ps ++ [p]).filter (fun q => q.2.1 = p.2.1) = [p] := by
          rw [List.filter_append, hfilnil]
          simp [List.filter_cons]
        simp [groupEntry, hfilp, gsum]

/-- The source's `Counter` fold computes exactly the spec's frequency table in
first-occurrence order. -/
theorem foldl_bump_eq (qs : List (List Char)) :
    qs.foldl bump [] = (dedupFirst qs).map (fun q => (q, qs.count q)) := by
  induction qs using List.reverseRecOn with
  | nil => simp [dedupFirst]
  | append_singleton qs x ih =>
    rw [List.foldl_append, List.foldl_cons, List.foldl_nil, ih]
    have hcount_ne : ∀ q, q ≠ x → (qs ++ [x]).count q = qs.count q := by
      intro q hq
      rw [List.count_append]
      simp [List.count_singleton', hq]
    by_cases hmem : x ∈ qs
    · have hkey : x ∈ dedupFirst qs := mem_dedupFirst.mpr hmem
      obtain ⟨k1, k2, hsplit⟩ := List.append_of_mem hkey
      have hnodup : (k1 ++ x :: k2).Nodup := by
        rw [← hsplit]; exact nodup_dedupFirst _
      have hnotmem : x ∉ k1 ∧ x ∉ k2 := by
        rw [List.nodup_middle, List.nodup_cons, List.mem_append] at hnodup
        exact ⟨fun h => hnodup.1 (Or.inl h), fun h => hnodup.1 (Or.inr h)⟩
      have hdedup : dedupFirst (qs ++ [x]) = k1 ++ x :: k2 := by
        rw [dedupFirst_append_singleton, if_pos hmem, hsplit]
      have hforall : ∀ e ∈ k1.map (fun q => (q, qs.count q)), e.1 ≠ x := by
        intro e he
        obtain ⟨u, hu, hue⟩ := List.exists_of_mem_map he
        rw [← hue]
        exact fun hcontra => hnotmem.1 (hcontra ▸ hu)
      rw [hsplit, hdedup, List.map_append, List.map_cons, List.map_append, List.map_cons,
        bump_append_found hforall]
      congr 1
      · refine List.map_congr_left (fun u hu => ?_)
        have hune : u ≠ x := fun h => hnotmem.1 (h ▸ hu)
        rw [hcount_ne u hune]
      congr 1
      · have hcx : (qs ++ [x]).count x = qs.count x + 1 := by
          rw [List.count_append]; simp
        rw [hcx]
      · refine List.map_congr_left (fun u hu => ?_)
        have hune : u ≠ x := fun h => hnotmem.2 (h ▸ hu)
        rw [hcount_ne u hune]
    · have hdedup : dedupFirst (qs ++ [x]) = dedupFirst qs ++ [x] := by
        rw [dedupFirst_append_singleton, if_neg hmem]
      have hforall : ∀ e ∈ (dedupFirst qs).map (fun q => (q, qs.count q)), e.1 ≠ x := by
        intro e he
        obtain ⟨u, hu, hue⟩ := List.exists_of_mem_map he
        rw [← hue]
        exact fun hcontra => hmem (hcontra ▸ mem_dedupFirst.mp hu)
      rw [bump_of_forall_ne hforall, hdedup, List.map_append, List.map_singleton]
      congr 1
      · refine List.map_congr_left (fun u hu => ?_)
        have hune : u ≠ x := fun h => hmem (h ▸ mem_dedupFirst.mp hu)
        rw [hcount_ne u hune]
      · have h0 : qs.count x = 0 := List.count_eq_zero.mpr hmem
        have hcx : (qs ++ [x]).count x = 1 := by
          rw [List.count_append, h0]; simp
        rw [hcx]

theorem aggregateCore_eq_ref (qs : List (List Char)) :
    aggregateCore qs = aggregateRef qs := by
  match qs with
  | [] => rfl
  | [q] => rfl
  | a :: b :: t =>
    by_cases h : ((a :: b :: t).map parseQ).all Option.isSome
    · obtain ⟨ps, hps⟩ := allSome_isSome h
      have hmap : (a :: b :: t).map parseQ = ps.map some := allSome_eq_some hps
      simp only [aggregateCore, aggregateRef, hps, if_pos h]
      rw [hmap, List.foldl_map]
      have hfold : ps.foldl (fun acc p => groupStep acc (some p)) [] =
          ps.foldl (fun acc p => addGroup acc p.2.1 p.1 p.2.2) [] := rfl
      rw [hfold, foldl_addGroup_eq, List.map_map]
      rfl
    · have hnone := allSome_none h
      simp only [aggregateCore, aggregateRef, hnone, if_neg h]
      rw [foldl_bump_eq, List.map_map]
      rfl

theorem aggregateCore_pair {x y : List Char} {va vb : F64} {u : List Char}
    {sa sb : Bool} (ha : parseQ x = some (va, u, sa))
    (hb : parseQ y = some (vb, u, sb)) :
    aggregateCore [x, y] = renderGroup (va + vb) u sa := by
  simp only [aggregateCore, List.map_cons, List.map_nil, ha, hb]
  rw [if_pos (by simp)]
  simp [groupStep, addGroup, List.intercalate, F64.add_def]

theorem aggregateCore_triple {x y z : List Char} {va vb vc : F64} {u : List Char}
    {sa sb sc : Bool} (ha : parseQ x = some (va, u, sa))
    (hb : parseQ y = some (vb, u, sb)) (hc : parseQ z = some (vc, u, sc)) :
    aggregateCore [x, y, z] = renderGroup (va + vb + vc) u sa := by
  simp only [aggregateCore, List.map_cons, List.map_nil, ha, hb, hc]
  rw [if_pos (by simp)]
  simp [groupStep, addGroup, List.intercalate, F64.add_def]

/-- C4: `aggregate_quantities` agrees with the spec's reference definition on
every input list (empty gives "", singletons unchanged, all-parsed inputs
grouped by trimmed unit with first-occurrence spacing and " + " joins,
otherwise frequency counting with "×count" and ", " joins), including the
spec's concrete examples; the numeric pipeline is IEEE-754 binary64, rounding
sums (`["1.1", "2.2"]` gives "3.3000000000000003") and printing whole totals
through `int` in full. -/
theorem C4_aggregate_matches_reference :
    (∀ qs : List String, aggregate_quantities qs = aggregate_quantities_ref qs)
    ∧ aggregate_quantities [] = ""
    ∧ aggregate_quantities ["2", "3"] = "5"
    ∧ aggregate_quantities ["400g", "200g"] = "600g"
    ∧ aggregate_quantities ["2 slices", "2 slices", "2 slices"] = "6 slices"
    ∧ aggregate_quantities ["400g", "1 tin"] = "400g + 1 tin"
    ∧ aggregate_quantities ["a handful", "a handful"] = "a handful ×2"
    ∧ aggregate_quantities ["1.1", "2.2"] = "3.3000000000000003"
    ∧ aggregate_quantities ["0.1", "0.2"] = "0.30000000000000004" := by
  refine ⟨fun qs => ?_, by decide, by decide, by decide, by decide, by decide,
    by decide, ?_, ?_⟩
  · unfold aggregate_quantities aggregate_quantities_ref
    rw [aggregateCore_eq_ref]
  · have h1 : parseQ ("1.1" : String).data =
        some (F64.fin 4953959590107546 (-52), [], false) := by decide
    have h2 : parseQ ("2.2" : String).data =
        some (F64.fin 4953959590107546 (-51), [], false) := by decide
    have h3 : F64.fin 4953959590107546 (-52) + F64.fin 4953959590107546 (-51) =
        F64.fin 7430939385161319 (-51) := by decide
    show (⟨aggregateCore [("1.1" : String).data, ("2.2" : String).data]⟩ : String) = _
    rw [aggregateCore_pair h1 h2, h3]
    decide
  · have h1 : parseQ ("0.1" : String).data =
        some (F64.fin 7205759403792794 (-56), [], false) := by decide
    have h2 : parseQ ("0.2" : String).data =
        some (F64.fin 7205759403792794 (-55), [], false) := by decide
    have h3 : F64.fin 7205759403792794 (-56) + F64.fin 7205759403792794 (-55) =
        F64.fin 5404319552844596 (-54) := by decide
    show (⟨aggregateCore [("0.1" : String).data, ("0.2" : String).data]⟩ : String) = _
    rw [aggregateCore_pair h1 h2, h3]
    decide

/-! ### String-level helper lemmas -/

theorem dropWhile_head_false {α : Type} {p : α → Bool} {l : List α} {c : α}
    (h : (l.dropWhile p).head? = some c) : p c = false := by
  induction l with
  | nil => simp [List.dropWhile] at h
  | cons a t ih =>
    by_cases hpa : p a = true
    · rw [List.dropWhile_cons_of_pos hpa] at h
      exact ih h
    · rw [List.dropWhile_cons_of_neg hpa] at h
      simp only [List.head?_cons, Option.some.injEq] at h
      rw [← h]
      exact Bool.eq_false_iff.mpr hpa

theorem dropWhile_ne_nil_of_exists {α : Type} {p : α → Bool} {l : List α}
    (h : ∃ x ∈ l, p x = false) : l.dropWhile p ≠ [] := by
  induction l with
  | nil => simp at h
  | cons a t ih =>
    by_cases hpa : p a = true
    · rw [List.dropWhile_cons_of_pos hpa]
      refine ih ?_
      obtain ⟨x, hx, hpx⟩ := h
      rcases List.mem_cons.mp hx with rfl | hx2
      · rw [hpa] at hpx; cases hpx
      · exact ⟨x, hx2, hpx⟩
    · rw [List.dropWhile_cons_of_neg hpa]
      simp

theorem getLast?_dropWhile {α : Type} {p : α → Bool} {l : List α}
    (h : l.dropWhile p ≠ []) : (l.dropWhile p).getLast? = l.getLast? := by
  induction l with
  | nil => simp [List.dropWhile] at h
  | cons a t ih =>
    by_cases hpa : p a = true
    · rw [List.dropWhile_cons_of_pos hpa] at h ⊢
      rw [ih h]
      cases t with
      | nil => simp [List.dropWhile] at h
      | cons b t' => rw [List.getLast?_cons_cons]
    · rw [List.dropWhile_cons_of_neg hpa]

theorem takeWhile_append_all {α : Type} {p : α → Bool} {l1 l2 : List α}
    (h : ∀ c ∈ l1, p c = true) :
    (l1 ++ l2).takeWhile p = l1 ++ l2.takeWhile p := by
  induction l1 with
  | nil => simp
  | cons a t ih =>
    have hpa : p a = true := h a (List.mem_cons_self _ _)
    simp only [List.cons_append, List.takeWhile_cons_of_pos hpa, List.cons.injEq, true_and]
    exact ih (fun c hc => h c (List.mem_cons_of_mem _ hc))

theorem dropWhile_append_all {α : Type} {p : α → Bool} {l1 l2 : List α}
    (h : ∀ c ∈ l1, p c = true) :
    (l1 ++ l2).dropWhile p = l2.dropWhile p := by
  induction l1 with
  | nil => simp
  | cons a t ih =>
    have hpa : p a = true := h a (List.mem_cons_self _ _)
    simp only [List.cons_append, List.dropWhile_cons_of_pos hpa]
    exact ih (fun c hc => h c (List.mem_cons_of_mem _ hc))

theorem takeWhile_all_eq_self {α : Type} {p : α → Bool} {l : List α}
    (h : ∀ c ∈ l, p c = true) : l.takeWhile p = l := by
  induction l with
  | nil => rfl
  | cons a t ih =>
    rw [List.takeWhile_cons_of_pos (h a (List.mem_cons_self _ _))]
    rw [ih (fun c hc => h c (List.mem_cons_of_mem _ hc))]

theorem dropWhile_all_eq_nil {α : Type} {p : α → Bool} {l : List α}
    (h : ∀ c ∈ l, p c = true) : l.dropWhile p = [] := by
  induction l with
  | nil => rfl
  | cons a t ih =>
    rw [List.dropWhile_cons_of_pos (h a (List.mem_cons_self _ _))]
    exact ih (fun c hc => h c (List.mem_cons_of_mem _ hc))

theorem dropWhile_of_takeWhile_nil {α : Type} {p : α → Bool} {l : List α}
    (h : l.takeWhile p = []) : l.dropWhile p = l := by
  cases l with
  | nil => rfl
  | cons a t =>
    by_cases hpa : p a = true
    · rw [List.takeWhile_cons_of_pos hpa] at h
      cases h
    · rw [List.dropWhile_cons_of_neg hpa]

theorem stripChars_head? {l : List Char} {c : Char}
    (h : (stripChars l).head? = some c) : isWs c = false := by
  unfold stripChars at h
  rw [List.head?_reverse] at h
  have hne : (((l.dropWhile isWs).reverse).dropWhile isWs) ≠ [] := by
    intro hnil
    rw [hnil] at h
    simp at h
  rw [getLast?_dropWhile hne, List.getLast?_reverse] at h
  exact dropWhile_head_false h

theorem stripChars_getLast? {l : List Char} {c : Char}
    (h : (stripChars l).getLast? = some c) : isWs c = false := by
  unfold stripChars at h
  rw [List.getLast?_reverse] at h
  exact dropWhile_head_false h

theorem stripChars_eq_self {l : List Char}
    (h1 : ∀ c, l.head? = some c → isWs c = false)
    (h2 : ∀ c, l.getLast? = some c → isWs c = false) :
    stripChars l = l := by
  unfold stripChars
  have hdrop : l.dropWhile isWs = l := by
    cases l with
    | nil => rfl
    | cons a t =>
      have := h1 a rfl
      rw [List.dropWhile_cons_of_neg (by simp [this])]
  rw [hdrop]
  have hdrop2 : l.reverse.dropWhile isWs = l.reverse := by
    cases hrev : l.reverse with
    | nil => rfl
    | cons a t =>
      have hlast : l.getLast? = some a := by
        rw [← List.head?_reverse, hrev]
        rfl
      have := h2 a hlast
      rw [← hrev, hrev, List.dropWhile_cons_of_neg (by simp [this]), ← hrev]
  rw [hdrop2, List.reverse_reverse]

theorem stripChars_idem (l : List Char) : stripChars (stripChars l) = stripChars l := by
  refine stripChars_eq_self ?_ ?_
  · exact fun c h => stripChars_head? h
  · exact fun c h => stripChars_getLast? h

theorem mem_of_dropWhile {α : Type} {p : α → Bool} {l : List α} {x : α}
    (h : x ∈ l.dropWhile p) : x ∈ l :=
  (List.dropWhile_sublist _).subset h

theorem mem_stripChars {c : Char} {l : List Char} (h : c ∈ stripChars l) : c ∈ l := by
  unfold stripChars at h
  rw [List.mem_reverse] at h
  have h1 := mem_of_dropWhile h
  rw [List.mem_reverse] at h1
  exact mem_of_dropWhile h1

/-! ### Digit rendering lemmas -/

theorem digitChar_toNat {d : ℕ} (h : d < 10) : (digitChar d).toNat = 48 + d := by
  interval_cases d <;> decide

theorem digitChar_isDigit {d : ℕ} (h : d < 10) : (digitChar d).isDigit = true := by
  interval_cases d <;> decide

theorem digitsToNat_append_digit (l : List Char) (c : Char) :
    digitsToNat (l ++ [c]) = 10 * digitsToNat l + (c.toNat - 48) := by
  unfold digitsToNat
  rw [List.foldl_append]
  rfl

theorem digitsToNat_natCharsGo {f n : ℕ} (h : n ≤ f) :
    digitsToNat (natCharsGo f n) = n := by
  induction f generalizing n with
  | zero =>
    have : n = 0 := Nat.le_zero.mp h
    simp [natCharsGo, this, digitsToNat]
  | succ f ih =>
    by_cases hn : n = 0
    · simp [natCharsGo, hn, digitsToNat]
    · rw [natCharsGo, if_neg hn, digitsToNat_append_digit,
        ih (by omega), digitChar_toNat (Nat.mod_lt _ (by omega))]
      omega

theorem digitsToNat_natChars (n : ℕ) : digitsToNat (natChars n) = n := by
  by_cases hn : n = 0
  · simp [natChars, hn, digitsToNat]
  · rw [natChars, if_neg hn]
    exact digitsToNat_natCharsGo le_rfl

theorem natCharsGo_all_digit {f n : ℕ} {c : Char} (h : c ∈ natCharsGo f n) :
    c.isDigit = true := by
  induction f generalizing n with
  | zero => simp [natCharsGo] at h
  | succ f ih =>
    by_cases hn : n = 0
    · simp [natCharsGo, hn] at h
    · rw [natCharsGo, if_neg hn] at h
      rcases List.mem_append.mp h with h1 | h1
      · exact ih h1
      · have : c = digitChar (n % 10) := by simpa using h1
        rw [this]
        exact digitChar_isDigit (Nat.mod_lt _ (by omega))

theorem natChars_all_digit {n : ℕ} {c : Char} (h : c ∈ natChars n) :
    c.isDigit = true := by
  by_cases hn : n = 0
  · simp [natChars, hn] at h
    simp [h]
  · rw [natChars, if_neg hn] at h
    exact natCharsGo_all_digit h

theorem natChars_ne_nil (n : ℕ) : natChars n ≠ [] := by
  by_cases hn : n = 0
  · simp [natChars, hn]
  · rw [natChars, if_neg hn]
    match f : n, hn with
    | m + 1, _ =>
      rw [natCharsGo, if_neg (by omega)]
      simp

theorem natCharsGo_length_le {f n k : ℕ} (h : n < 10 ^ k) :
    (natCharsGo f n).length ≤ k := by
  induction f generalizing n k with
  | zero => simp [natCharsGo]
  | succ f ih =>
    by_cases hn : n = 0
    · simp [natCharsGo, hn]
    · rw [natCharsGo, if_neg hn]
      match k with
      | 0 => omega
      | k' + 1 =>
        have hdiv : n / 10 < 10 ^ k' := by
          rw [Nat.div_lt_iff_lt_mul (by omega)]
          calc n < 10 ^ (k' + 1) := h
          _ = 10 ^ k' * 10 := by ring
        have := ih hdiv
        simp only [List.length_append, List.length_cons, List.length_nil]
        omega

theorem digitsToNat_replicate_zero (j : ℕ) (l : List Char) :
    digitsToNat (List.replicate j '0' ++ l) = digitsToNat l := by
  induction j with
  | zero => simp
  | succ j ih =>
    rw [List.replicate_succ, List.cons_append]
    unfold digitsToNat at ih ⊢
    simp only [List.foldl_cons]
    have hacc : (10 * 0 + ('0'.toNat - 48)) = 0 := rfl
    rw [hacc]
    exact ih

theorem not_dot_of_digit {c : Char} (h : c.isDigit = true) : (c == '.') = false := by
  revert h
  unfold Char.isDigit
  intro h
  simp only [beq_eq_false_iff_ne, ne_eq]
  intro hc
  rw [hc] at h
  simp at h

/-! ### Digit-string lemmas -/

theorem isDigitDot_not_ws {c : Char} (h : isDigitDot c = true) : isWs c = false := by
  unfold isDigitDot at h
  rw [Bool.or_eq_true] at h
  by_contra hws
  rw [Bool.not_eq_false, isWs] at hws
  simp only [Bool.or_eq_true, decide_eq_true_eq] at hws
  rcases hws with ((((h1 | h1) | h1) | h1) | h1) | h1 <;>
    (subst h1; revert h; decide)

theorem natChars_length_le {n k : ℕ} (h : n < 10 ^ k) (hk : 1 ≤ k) :
    (natChars n).length ≤ k := by
  by_cases hn : n = 0
  · simp [natChars, hn]
    omega
  · rw [natChars, if_neg hn]
    exact natCharsGo_length_le h

theorem natChars_any_digit (n : ℕ) : (natChars n).any Char.isDigit = true := by
  obtain ⟨c, rest, hc⟩ := List.exists_cons_of_ne_nil (natChars_ne_nil n)
  rw [List.any_eq_true]
  exact ⟨c, by rw [hc]; exact List.mem_cons_self _ _,
    natChars_all_digit (by rw [hc]; exact List.mem_cons_self _ _)⟩

theorem count_dot_zero_of_digits {l : List Char} (hd : ∀ c ∈ l, c.isDigit = true) :
    l.count '.' = 0 := by
  rw [List.count_eq_zero]
  intro hmem
  have := not_dot_of_digit (hd _ hmem)
  simp at this

theorem nodot_of_digits {l : List Char} (hd : ∀ c ∈ l, c.isDigit = true) :
    ∀ c ∈ l, (c != '.') = true := by
  intro c hc
  have := not_dot_of_digit (hd c hc)
  simpa [bne] using this

theorem any_digit_of_ne_nil {l : List Char} (hd : ∀ c ∈ l, c.isDigit = true)
    (hne : l ≠ []) : l.any Char.isDigit = true := by
  obtain ⟨c, rest, hc⟩ := List.exists_cons_of_ne_nil hne
  rw [List.any_eq_true]
  exact ⟨c, by rw [hc]; exact List.mem_cons_self _ _,
    hd c (by rw [hc]; exact List.mem_cons_self _ _)⟩

theorem replicate_zero_digits (j : ℕ) : ∀ c ∈ List.replicate j '0', c.isDigit = true := by
  intro c hc
  have : c = '0' := List.eq_of_mem_replicate hc
  rw [this]; rfl

/-! ### Parse provenance -/

theorem stripChars_head_preserve {l : List Char} {c : Char}
    (h : l.head? = some c) (hws : isWs c = false) : (stripChars l).head? = some c := by
  obtain ⟨t, rfl⟩ : ∃ t, l = c :: t := by
    cases l with
    | nil => cases h
    | cons a t =>
      simp only [List.head?_cons, Option.some.injEq] at h
      exact ⟨t, by rw [h]⟩
  unfold stripChars
  rw [List.dropWhile_cons_of_neg (by simp [hws])]
  rw [List.head?_reverse]
  have hne : (c :: t).reverse.dropWhile isWs ≠ [] :=
    dropWhile_ne_nil_of_exists ⟨c, by simp, hws⟩
  rw [getLast?_dropWhile hne, List.getLast?_reverse]
  rfl

theorem contains_eq_false_of_not_mem {c : Char} {l : List Char} (h : c ∉ l) :
    l.contains c = false := by
  cases hb : l.contains c
  · rfl
  · exact absurd (List.mem_of_elem_eq_true hb) h

theorem getLast?_append_right {α : Type} {l1 l2 : List α} (h : l2 ≠ []) :
    (l1 ++ l2).getLast? = l2.getLast? := by
  induction l1 with
  | nil => simp
  | cons a t ih =>
    have htne : t ++ l2 ≠ [] := by
      intro hnil
      exact h (List.append_eq_nil.mp hnil).2
    obtain ⟨b, r, hb⟩ := List.exists_cons_of_ne_nil htne
    rw [List.cons_append, hb, List.getLast?_cons_cons, ← hb, ih]

theorem mem_of_getLast? {α : Type} {l : List α} {x : α} (h : l.getLast? = some x) :
    x ∈ l := by
  induction l with
  | nil => cases h
  | cons a t ih =>
    cases t with
    | nil =>
      simp only [List.getLast?_singleton, Option.some.injEq] at h
      rw [← h]
      exact List.mem_cons_self _ _
    | cons b r =>
      rw [List.getLast?_cons_cons] at h
      exact List.mem_cons_of_mem _ (ih h)

/-! ### C5: algebraic properties of same-unit aggregation -/

theorem F64.add_comm (a b : F64) : a + b = b + a := by
  cases a with
  | inf => cases b <;> rfl
  | fin m1 e1 =>
    cases b with
    | inf => rfl
    | fin m2 e2 =>
      simp only [F64.add_def, F64.add]
      rw [min_comm e2 e1,
        Nat.add_comm (m2 * 2 ^ (e2 - min e1 e2).toNat) (m1 * 2 ^ (e1 - min e1 e2).toNat)]

/-- C5 counterexample: permutation invariance fails twice over. The number-unit
spacing of a unit's first occurrence is reused, so permuting mixed-spacing
inputs changes the rendered string; and float addition is not associative, so
permuting magnitudes changes the rounded total itself
(`10^16 + 1 + 1` sums to `10^16` left to right, but `1 + 1 + 10^16` to
`10^16 + 2`). -/
theorem C5_counterexample :
    (["2 slices", "2slices"] : List String).Perm ["2slices", "2 slices"]
    ∧ parseQ ("2 slices" : String).data = some (roundPos 2 1, "slices".data, true)
    ∧ parseQ ("2slices" : String).data = some (roundPos 2 1, "slices".data, false)
    ∧ aggregate_quantities ["2 slices", "2slices"] = "4 slices"
    ∧ aggregate_quantities ["2slices", "2 slices"] = "4slices"
    ∧ aggregate_quantities ["2 slices", "2slices"]
        ≠ aggregate_quantities ["2slices", "2 slices"]
    ∧ (["10000000000000000g", "1g", "1g"] : List String).Perm
        ["1g", "1g", "10000000000000000g"]
    ∧ aggregate_quantities ["10000000000000000g", "1g", "1g"] = "10000000000000000g"
    ∧ aggregate_quantities ["1g", "1g", "10000000000000000g"] = "10000000000000002g"
    ∧ aggregate_quantities ["10000000000000000g", "1g", "1g"]
        ≠ aggregate_quantities ["1g", "1g", "10000000000000000g"] := by
  refine ⟨?_, by decide, by decide, by decide, by decide, by decide,
    ?_, by decide, by decide, by decide⟩
  · exact List.Perm.swap _ _ _
  · exact List.Perm.trans (List.Perm.swap _ _ _)
      (List.Perm.cons _ (List.Perm.swap _ _ _))

/-- C5 (amended): with IEEE-754 float values, aggregating two quantities that
parse with the same unit and the same spacing flag is commutative (one float
addition of the two values, and addition of two floats commutes); and the
`[a, b, c] = [aggregate([a, b]), c]` identity holds for same-unit inputs
whenever re-parsing the rendered intermediate recovers its float value, unit
and spacing exactly (true whenever that rendering is not in scientific
notation, whose `e` the quantity regex reads as unit text). General
permutation invariance fails: float addition is not associative, and the
first occurrence's spacing is reused. -/
theorem C5_amended :
    (∀ (a b : String) (va vb : F64) (u : List Char) (s : Bool),
      parseQ a.data = some (va, u, s) → parseQ b.data = some (vb, u, s) →
      aggregate_quantities [a, b] = aggregate_quantities [b, a])
    ∧ (∀ (a b c : String) (va vb vc : F64) (u : List Char) (sa sb sc : Bool),
      parseQ a.data = some (va, u, sa) → parseQ b.data = some (vb, u, sb) →
      parseQ c.data = some (vc, u, sc) →
      parseQ (aggregate_quantities [a, b]).data = some (va + vb, u, sa) →
      aggregate_quantities [a, b, c] =
        aggregate_quantities [aggregate_quantities [a, b], c]) := by
  constructor
  · intro a b va vb u s ha hb
    show (⟨aggregateCore [a.data, b.data]⟩ : String) = ⟨aggregateCore [b.data, a.data]⟩
    rw [aggregateCore_pair ha hb, aggregateCore_pair hb ha, F64.add_comm]
  · intro a b c va vb vc u sa sb sc ha hb hc hrt
    show (⟨aggregateCore [a.data, b.data, c.data]⟩ : String) =
      ⟨aggregateCore [(aggregate_quantities [a, b]).data, c.data]⟩
    rw [aggregateCore_triple ha hb hc, aggregateCore_pair hrt hc]

/-- Concrete instantiation of the amended C5 theorem: all four parse
hypotheses checked by evaluation, commutativity at `["1.5g", "2.25g"]` and
the aggregate-of-aggregate identity at `["1.5g", "2.25g", "4g"]`. -/
theorem C5_amended_witness :
    (parseQ ("1.5g" : String).data = some (roundPos 15 10, "g".data, false)
     ∧ parseQ ("2.25g" : String).data = some (roundPos 225 100, "g".data, false)
     ∧ parseQ ("4g" : String).data = some (roundPos 4 1, "g".data, false)
     ∧ parseQ (aggregate_quantities ["1.5g", "2.25g"]).data =
        some (roundPos 15 10 + roundPos 225 100, "g".data, false))
    ∧ aggregate_quantities ["1.5g", "2.25g"] = aggregate_quantities ["2.25g", "1.5g"]
    ∧ aggregate_quantities ["1.5g", "2.25g", "4g"] =
        aggregate_quantities [aggregate_quantities ["1.5g", "2.25g"], "4g"] :=
  ⟨⟨by decide, by decide, by decide, by decide⟩,
   C5_amended.1 "1.5g" "2.25g" (roundPos 15 10) (roundPos 225 100) "g".data false
     (by decide) (by decide),
   C5_amended.2 "1.5g" "2.25g" "4g" (roundPos 15 10) (roundPos 225 100) (roundPos 4 1)
     "g".data false false false (by decide) (by decide) (by decide) (by decide)⟩

/-! ### C6: the change-report formatter -/

/-- C6 counterexample: every message carries the prefix
"Shopping list regenerated: ", so the all-zero report does not render exactly
"no changes needed"; and with only removals the parenthesized clause is
"(1 removed)", not "(0 added, 1 removed)". -/
theorem C6_counterexample :
    format_regeneration_message ⟨[], [], [], (0, 0, 0)⟩ =
      "Shopping list regenerated: no changes needed"
    ∧ format_regeneration_message ⟨[], [], [], (0, 0, 0)⟩ ≠ "no changes needed"
    ∧ format_regeneration_message ⟨[], [], [("Y", "2")], (0, 0, 1)⟩ =
      "Shopping list regenerated: (1 removed)"
    ∧ format_regeneration_message ⟨[], [], [("Y", "2")], (0, 0, 1)⟩ ≠
      "Shopping list regenerated: (0 added, 1 removed)" := by
  refine ⟨by decide, by decide, by decide, by decide⟩

/-- C6 (amended): `format_regeneration_message` renders exactly the amended
reference: the "Shopping list regenerated: " prefix on every message,
"no changes needed" when all three counts are zero, otherwise the first 3
updated entries as "Name: old → new" comma-joined, a "N more" suffix when
more than 3 were updated, and a parenthesized clause naming only the nonzero
added/removed counts, all space-joined. -/
theorem C6_formatter_matches_reference (c : Changes) :
    format_regeneration_message c = format_regeneration_message_ref c := by
  simp only [format_regeneration_message, format_regeneration_message_ref]
  by_cases hz : c.counts.1 = 0 ∧ c.counts.2.1 = 0 ∧ c.counts.2.2 = 0
  · rw [if_pos hz, if_pos hz]
    decide
  · rw [if_neg hz, if_neg hz]
    by_cases hu : c.counts.1 = 0 <;> by_cases h3 : 3 < c.counts.1 <;>
      by_cases ha : c.counts.2.1 = 0 <;> by_cases hr : c.counts.2.2 = 0 <;>
      cases c.updated <;>
      first
        | (exfalso; omega)
        | simp [hu, h3, ha, hr, Nat.pos_iff_ne_zero]
/-! ### C9: the presenter -/

theorem groupUpsert_of_forall_ne {nm : String} {o : ℕ} {cat : Option Category}
    {it : SItem} {L : List (String × Bucket)} (h : ∀ e ∈ L, e.1 ≠ nm) :
    groupUpsert nm o cat it L = L ++ [(nm, ⟨o, [it], cat⟩)] := by
  induction L with
  | nil => rfl
  | cons e t ih =>
    obtain ⟨nm', b⟩ := e
    have hne : nm' ≠ nm := h (nm', b) (List.mem_cons_self _ _)
    simp only [groupUpsert, if_neg hne, List.cons_append, List.cons.injEq, true_and]
    exact ih (fun e he => h e (List.mem_cons_of_mem _ he))

theorem groupUpsert_append_found {L1 L2 : List (String × Bucket)} {nm : String}
    {b : Bucket} {o' : ℕ} {cat' : Option Category} {it : SItem}
    (h : ∀ e ∈ L1, e.1 ≠ nm) :
    groupUpsert nm o' cat' it (L1 ++ (nm, b) :: L2) =
      L1 ++ (nm, ⟨b.order, b.citems ++ [it], b.category⟩) :: L2 := by
  induction L1 with
  | nil => simp [groupUpsert]
  | cons e t1 ih =>
    obtain ⟨nm', b'⟩ := e
    have hne : nm' ≠ nm := h (nm', b') (List.mem_cons_self _ _)
    simp only [List.cons_append, groupUpsert, if_neg hne, List.cons.injEq, true_and]
    exact ih (fun e he => h e (List.mem_cons_of_mem _ he))

/-- The presenter's grouping fold equals the first-occurrence/filter
description. -/
theorem foldl_addToGroup_eq (corder : List (ℕ × ℕ)) (l : List SItem) :
    l.foldl (addToGroup corder) [] =
      (dedupFirst (l.map runName)).map (bucketEntry corder l) := by
  induction l using List.reverseRecOn with
  | nil => simp [dedupFirst]
  | append_singleton l it ih =>
    rw [List.foldl_append, List.foldl_cons, List.foldl_nil, ih]
    have hmapn : (l ++ [it]).map runName = l.map runName ++ [runName it] := by simp
    by_cases hmem : runName it ∈ l.map runName
    · have hkey : runName it ∈ dedupFirst (l.map runName) := mem_dedupFirst.mpr hmem
      obtain ⟨k1, k2, hsplit⟩ := List.append_of_mem hkey
      have hnodup : (k1 ++ runName it :: k2).Nodup := by
        rw [← hsplit]; exact nodup_dedupFirst _
      have hnotmem : runName it ∉ k1 ∧ runName it ∉ k2 := by
        rw [List.nodup_middle, List.nodup_cons, List.mem_append] at hnodup
        exact ⟨fun h => hnodup.1 (Or.inl h), fun h => hnodup.1 (Or.inr h)⟩
      have hfil : ∀ nm, nm ≠ runName it →
          (l ++ [it]).filter (fun q => runName q = nm) =
            l.filter (fun q => runName q = nm) := by
        intro nm hnm
        rw [List.filter_append]
        have hone : [it].filter (fun q => runName q = nm) = [] := by
          simp [List.filter_cons, Ne.symm hnm]
        simp [hone]
      have hentry : ∀ nm, nm ≠ runName it →
          bucketEntry corder (l ++ [it]) nm = bucketEntry corder l nm := by
        intro nm hnm
        simp [bucketEntry, hfil nm hnm]
      have hfilp : (l ++ [it]).filter (fun q => runName q = runName it) =
          l.filter (fun q => runName q = runName it) ++ [it] := by
        rw [List.filter_append]
        simp [List.filter_cons]
      have hfne : l.filter (fun q => runName q = runName it) ≠ [] := by
        obtain ⟨q, hq, hqn⟩ := List.exists_of_mem_map hmem
        intro hnil
        have hqin : q ∈ l.filter (fun q => runName q = runName it) :=
          List.mem_filter.mpr ⟨hq, by simp [hqn]⟩
        simp [hnil] at hqin
      obtain ⟨q0, rest, hq0⟩ := List.exists_cons_of_ne_nil hfne
      have hdedup : dedupFirst ((l ++ [it]).map runName) = k1 ++ runName it :: k2 := by
        rw [hmapn, dedupFirst_append_singleton, if_pos hmem, hsplit]
      have hforall : ∀ e ∈ k1.map (bucketEntry corder l), e.1 ≠ runName it := by
        intro e he
        obtain ⟨nm, hnm, hne⟩ := List.exists_of_mem_map he
        rw [← hne]
        intro hcontra
        exact hnotmem.1 (hcontra ▸ hnm)
      rw [hsplit, hdedup]
      rw [List.map_append, List.map_cons, List.map_append, List.map_cons]
      have hbe : bucketEntry corder l (runName it) = (runName it,
          ⟨(((l.filter (fun q => runName q = runName it)).head?.map
              (catOrderOf corder)).getD 999),
           l.filter (fun q => runName q = runName it),
           (((l.filter (fun q => runName q = runName it)).head?.map
              (fun it => it.category)).getD none)⟩) := rfl
      show groupUpsert (runName it) (catOrderOf corder it) it.category it _ = _
      rw [hbe, groupUpsert_append_found hforall]
      congr 1
      · exact (List.map_congr_left (fun nm hnm => (hentry nm (fun h =>
          hnotmem.1 (h ▸ hnm))).symm))
      congr 1
      · simp only [bucketEntry, hfilp, hq0]
        simp
      · exact (List.map_congr_left (fun nm hnm => (hentry nm (fun h =>
          hnotmem.2 (h ▸ hnm))).symm))
    · have hdedup : dedupFirst ((l ++ [it]).map runName) =
          dedupFirst (l.map runName) ++ [runName it] := by
        rw [hmapn, dedupFirst_append_singleton, if_neg hmem]
      have hforall : ∀ e ∈ (dedupFirst (l.map runName)).map (bucketEntry corder l),
          e.1 ≠ runName it := by
        intro e he
        obtain ⟨nm, hnm, hne⟩ := List.exists_of_mem_map he
        rw [← hne]
        intro hcontra
        exact hmem (hcontra ▸ mem_dedupFirst.mp hnm)
      show groupUpsert (runName it) (catOrderOf corder it) it.category it _ = _
      rw [groupUpsert_of_forall_ne hforall, hdedup, List.map_append, List.map_singleton]
      congr 1
      · refine List.map_congr_left (fun nm hnm => ?_)
        have hnmne : nm ≠ runName it := fun h => hmem (h ▸ mem_dedupFirst.mp hnm)
        have hfil : (l ++ [it]).filter (fun q => runName q = nm) =
            l.filter (fun q => runName q = nm) := by
          rw [List.filter_append]
          have hone : [it].filter (fun q => runName q = nm) = [] := by
            simp [List.filter_cons, Ne.symm hnmne]
          simp [hone]
        simp [bucketEntry, hfil]
      · have hfilnil : l.filter (fun q => runName q = runName it) = [] := by
          rw [List.filter_eq_nil_iff]
          intro q hq
          simp only [decide_eq_true_eq]
          intro hqn
          exact hmem (List.mem_map.mpr ⟨q, hq, hqn⟩)
        have hfilp : (l ++ [it]).filter (fun q => runName q = runName it) = [it] := by
          rw [List.filter_append, hfilnil]
          simp [List.filter_cons]
        simp [bucketEntry, hfilp]

/-- C9 counterexample: with a checked item, the sorted sequence interleaves
category names, so consecutive-run grouping (the claim) yields three buckets
where `get_sorted_items` returns two (all same-name items merged into one
bucket by the dict keyed on category name). -/
theorem C9_counterexample :
    get_sorted_items none
        [⟨none, "a", some ⟨1, "Veg"⟩, "1", false, false, false, false, false⟩,
         ⟨none, "b", some ⟨2, "Fruit"⟩, "1", false, false, false, false, false⟩,
         ⟨none, "c", some ⟨1, "Veg"⟩, "1", true, false, false, false, false⟩] ≠
      get_sorted_items_claim none
        [⟨none, "a", some ⟨1, "Veg"⟩, "1", false, false, false, false, false⟩,
         ⟨none, "b", some ⟨2, "Fruit"⟩, "1", false, false, false, false, false⟩,
         ⟨none, "c", some ⟨1, "Veg"⟩, "1", true, false, false, false, false⟩]
    ∧ (get_sorted_items none
        [⟨none, "a", some ⟨1, "Veg"⟩, "1", false, false, false, false, false⟩,
         ⟨none, "b", some ⟨2, "Fruit"⟩, "1", false, false, false, false, false⟩,
         ⟨none, "c", some ⟨1, "Veg"⟩, "1", true, false, false, false, false⟩]).map
        (fun g => (g.1, g.2.citems.map (fun i => i.name))) =
      [("Veg", ["a", "c"]), ("Fruit", ["b"])]
    ∧ (get_sorted_items_claim none
        [⟨none, "a", some ⟨1, "Veg"⟩, "1", false, false, false, false, false⟩,
         ⟨none, "b", some ⟨2, "Fruit"⟩, "1", false, false, false, false, false⟩,
         ⟨none, "c", some ⟨1, "Veg"⟩, "1", true, false, false, false, false⟩]).map
        (fun g => (g.1, g.2.citems.map (fun i => i.name))) =
      [("Veg", ["a"]), ("Fruit", ["b"]), ("Veg", ["c"])] := by
  refine ⟨by decide, by decide, by decide⟩

/-- C9 (amended): `get_sorted_items` sorts items by (isChecked asc, category
rank asc with 999 sentinel, lowercased name asc; stable over the queryset
order), groups ALL items of the same category name — not only consecutive
runs — into one bucket carrying the first occurrence's rank and category
("Other" with the sentinel rank for no category), and returns buckets stably
sorted by rank ascending; as a pure function it mutates nothing. -/
theorem C9_presenter_matches_reference (store : Option Store) (items : List SItem) :
    get_sorted_items store items = get_sorted_items_ref store items := by
  simp only [get_sorted_items, get_sorted_items_ref]
  rw [foldl_addToGroup_eq]

/-! ### C8: shuffle preserves pinned and supplementary meals -/

theorem shuffleGo_created_flags (catalog : List (ℕ × List Recipe))
    (pinned : List PlannedMeal) (rng : ℕ → ℕ) (days : List ℕ) (prev : Option ℕ)
    (ctr : ℕ) : ∀ pm ∈ (shuffleGo catalog pinned rng days prev ctr).1,
      pm.isSupplementary = false ∧ pm.isPinned = false := by
  induction days generalizing prev ctr with
  | nil =>
    intro pm hpm
    simp [shuffleGo] at hpm
  | cons d ds ih =>
    intro pm hpm
    simp only [shuffleGo] at hpm
    repeat' split at hpm
    all_goals
      first
      | (simp at hpm; done)
      | (simp only [List.mem_cons] at hpm
         rcases hpm with rfl | hpm
         · exact ⟨rfl, rfl⟩
         · exact ih _ _ pm hpm)
      | exact ih _ _ pm (by simpa using hpm)

theorem filter_supp_of_remaining (l : List PlannedMeal) :
    (l.filter (fun pm => !(!pm.isSupplementary && !pm.isPinned))).filter
        (fun pm => pm.isSupplementary) =
      l.filter (fun pm => pm.isSupplementary) := by
  rw [List.filter_filter]
  apply List.filter_congr
  intro pm _
  cases pm.isSupplementary <;> cases pm.isPinned <;> rfl

theorem filter_pin_of_remaining (l : List PlannedMeal) :
    (l.filter (fun pm => !(!pm.isSupplementary && !pm.isPinned))).filter
        (fun pm => !pm.isSupplementary && pm.isPinned) =
      l.filter (fun pm => !pm.isSupplementary && pm.isPinned) := by
  rw [List.filter_filter]
  apply List.filter_congr
  intro pm _
  cases pm.isSupplementary <;> cases pm.isPinned <;> rfl

/-- C8: every shuffle run — with any catalog, any plan, any number of days,
any random oracle, including runs where the source would raise on a
recipe-less pinned meal — leaves the plan's supplementary meals (of any pin
status) exactly unchanged and preserves every pinned primary meal with all
its fields (day offset, recipe, pin flag) intact; newly created meals are
never supplementary and never pinned. -/
theorem C8_shuffle_frame (mealTypeIds : List ℕ) (recipes : List Recipe)
    (wp : WeekPlan) (numDays : ℕ) (rng : ℕ → ℕ) :
    ((shuffle_meals mealTypeIds recipes wp numDays rng).1.plannedMeals.filter
        (fun pm => pm.isSupplementary) =
      wp.plannedMeals.filter (fun pm => pm.isSupplementary))
    ∧ ((shuffle_meals mealTypeIds recipes wp numDays rng).1.plannedMeals.filter
        (fun pm => !pm.isSupplementary && pm.isPinned) =
      wp.plannedMeals.filter (fun pm => !pm.isSupplementary && pm.isPinned)) := by
  simp only [shuffle_meals]
  by_cases hcat : (buildCatalog mealTypeIds recipes).isEmpty
  · rw [if_pos hcat]
    exact ⟨filter_supp_of_remaining _, filter_pin_of_remaining _⟩
  · rw [if_neg hcat]
    have hflags := shuffleGo_created_flags (buildCatalog mealTypeIds recipes)
      (wp.plannedMeals.filter (fun pm => !pm.isSupplementary && pm.isPinned)) rng
      (List.range numDays) none 0
    constructor
    · simp only [List.filter_append]
      have hcreated : ((shuffleGo (buildCatalog mealTypeIds recipes)
          (wp.plannedMeals.filter (fun pm => !pm.isSupplementary && pm.isPinned)) rng
          (List.range numDays) none 0).1).filter (fun pm => pm.isSupplementary) = [] := by
        rw [List.filter_eq_nil_iff]
        intro pm hpm
        simp [(hflags pm hpm).1]
      rw [hcreated, List.append_nil]
      exact filter_supp_of_remaining _
    · simp only [List.filter_append]
      have hcreated : ((shuffleGo (buildCatalog mealTypeIds recipes)
          (wp.plannedMeals.filter (fun pm => !pm.isSupplementary && pm.isPinned)) rng
          (List.range numDays) none 0).1).filter
            (fun pm => !pm.isSupplementary && pm.isPinned) = [] := by
        rw [List.filter_eq_nil_iff]
        intro pm hpm
        simp [(hflags pm hpm).1, (hflags pm hpm).2]
      rw [hcreated, List.append_nil]
      exact filter_pin_of_remaining _

/-! ### Shuffle: type alternation (C7) -/

theorem mem_dinsert {κ ν : Type} [DecidableEq κ] {k : κ} {v : ν} {l : List (κ × ν)}
    {e : κ × ν} (he : e ∈ dinsert k v l) : e = (k, v) ∨ e ∈ l := by
  induction l with
  | nil =>
    simp only [dinsert, List.mem_singleton] at he
    exact Or.inl he
  | cons a t ih =>
    obtain ⟨k0, v0⟩ := a
    by_cases h : k0 = k
    · simp only [dinsert, if_pos h, List.mem_cons] at he
      rcases he with he | he
      · exact Or.inl he
      · exact Or.inr (List.mem_cons_of_mem _ he)
    · simp only [dinsert, if_neg h, List.mem_cons] at he
      rcases he with he | he
      · exact Or.inr (he ▸ List.mem_cons_self _ _)
      · rcases ih he with h1 | h1
        · exact Or.inl h1
        · exact Or.inr (List.mem_cons_of_mem _ h1)

theorem keys_dinsert {κ ν : Type} [DecidableEq κ] (k : κ) (v : ν) (l : List (κ × ν)) :
    (dinsert k v l).map Prod.fst =
      if k ∈ l.map Prod.fst then l.map Prod.fst else l.map Prod.fst ++ [k] := by
  induction l with
  | nil => simp [dinsert]
  | cons a t ih =>
    obtain ⟨k0, v0⟩ := a
    by_cases h : k0 = k
    · subst h
      simp [dinsert]
    · simp only [dinsert, if_neg h, List.map_cons, ih]
      by_cases hk : k ∈ t.map Prod.fst
      · simp [hk, List.mem_cons, Ne.symm h]
      · simp [hk, List.mem_cons, Ne.symm h]

theorem keys_nodup_dinsert {κ ν : Type} [DecidableEq κ] (k : κ) (v : ν)
    {l : List (κ × ν)} (hl : (l.map Prod.fst).Nodup) :
    ((dinsert k v l).map Prod.fst).Nodup := by
  rw [keys_dinsert]
  by_cases h : k ∈ l.map Prod.fst
  · rw [if_pos h]
    exact hl
  · rw [if_neg h]
    simp [List.nodup_append, hl, h]

theorem lookup_mem_of_key {κ ν : Type} [DecidableEq κ] {k : κ} {l : List (κ × ν)}
    (hk : k ∈ l.map Prod.fst) : ∃ v, l.lookup k = some v ∧ (k, v) ∈ l := by
  induction l with
  | nil => simp at hk
  | cons a t ih =>
    obtain ⟨k0, v0⟩ := a
    by_cases h : k = k0
    · subst h
      exact ⟨v0, by simp [List.lookup], by simp⟩
    · simp only [List.map_cons, List.mem_cons] at hk
      rcases hk with hk | hk
      · exact absurd hk h
      · obtain ⟨v, hv, hmem⟩ := ih hk
        refine ⟨v, ?_, List.mem_cons_of_mem _ hmem⟩
        have hbeq : (k == k0) = false := by simpa using h
        simp only [List.lookup, hbeq]
        exact hv

theorem getD_mod_mem {α : Type} {l : List α} (hne : l ≠ []) (n : ℕ) (d : α) :
    l.getD (n % l.length) d ∈ l := by
  have hlt : n % l.length < l.length := Nat.mod_lt _ (List.length_pos.mpr hne)
  rw [List.getD_eq_getElem l d hlt]
  exact List.getElem_mem hlt

theorem filter_ne_ne_nil {l : List ℕ} (hnd : l.Nodup) (hlen : 2 ≤ l.length) (p : ℕ) :
    l.filter (fun t => t ≠ p) ≠ [] := by
  intro hnil
  rw [List.filter_eq_nil_iff] at hnil
  match l, hnd, hlen, hnil with
  | a :: b :: t, hnd, _, hnil =>
    have ha := hnil a (by simp)
    have hb := hnil b (by simp)
    simp only [decide_eq_true_eq, not_not] at ha hb
    have hab : a ≠ b := by
      simp only [List.nodup_cons, List.mem_cons] at hnd
      exact fun h => hnd.1 (Or.inl h)
    exact hab (ha.trans hb.symm)

theorem buildCatalog_inv (mealTypeIds : List ℕ) (recipes : List Recipe) :
    ((buildCatalog mealTypeIds recipes).map Prod.fst).Nodup ∧
    ∀ e ∈ buildCatalog mealTypeIds recipes, e.2 ≠ [] ∧ ∀ r ∈ e.2, r.mealTypeId = e.1 := by
  have main : ∀ (mts : List ℕ) (acc : List (ℕ × List Recipe)),
      (acc.map Prod.fst).Nodup →
      (∀ e ∈ acc, e.2 ≠ [] ∧ ∀ r ∈ e.2, r.mealTypeId = e.1) →
      ((mts.foldl (fun acc mt =>
          let rs := recipes.filter (fun r => r.mealTypeId = mt ∧ ¬r.isArchived)
          if rs.isEmpty then acc else dinsert mt rs acc) acc).map Prod.fst).Nodup ∧
      ∀ e ∈ mts.foldl (fun acc mt =>
          let rs := recipes.filter (fun r => r.mealTypeId = mt ∧ ¬r.isArchived)
          if rs.isEmpty then acc else dinsert mt rs acc) acc,
        e.2 ≠ [] ∧ ∀ r ∈ e.2, r.mealTypeId = e.1 := by
    intro mts
    induction mts with
    | nil => exact fun acc h1 h2 => ⟨h1, h2⟩
    | cons mt mts ih =>
      intro acc h1 h2
      simp only [List.foldl_cons]
      by_cases hrs : (recipes.filter (fun r => r.mealTypeId = mt ∧ ¬r.isArchived)).isEmpty
      · rw [if_pos hrs]
        exact ih acc h1 h2
      · rw [if_neg hrs]
        refine ih _ (keys_nodup_dinsert _ _ h1) ?_
        intro e he
        rcases mem_dinsert he with he | he
        · subst he
          constructor
          · intro hnil
            have hnil2 : recipes.filter (fun r => r.mealTypeId = mt ∧ ¬r.isArchived) = [] := hnil
            rw [hnil2] at hrs
            exact hrs rfl
          · intro r hr
            have hr2 : r ∈ recipes.filter (fun r => r.mealTypeId = mt ∧ ¬r.isArchived) := hr
            rw [List.mem_filter] at hr2
            have := hr2.2
            simp only [decide_eq_true_eq] at this
            exact this.1
        · exact h2 e he
  exact main mealTypeIds [] (by simp) (by simp)

theorem shuffleGo_alternates (catalog : List (ℕ × List Recipe)) (rng : ℕ → ℕ)
    (hnd : (catalog.map Prod.fst).Nodup)
    (hlen : 2 ≤ catalog.length)
    (hent : ∀ e ∈ catalog, e.2 ≠ [] ∧ ∀ r ∈ e.2, r.mealTypeId = e.1) :
    ∀ (days : List ℕ) (prev : Option ℕ) (ctr : ℕ),
      (shuffleGo catalog [] rng days prev ctr).2.2 = true ∧
      (shuffleGo catalog [] rng days prev ctr).2.1.length = days.length ∧
      List.Chain' (fun a b => pmTypeId a ≠ pmTypeId b)
        (shuffleGo catalog [] rng days prev ctr).2.1 ∧
      ∀ pm, (shuffleGo catalog [] rng days prev ctr).2.1.head? = some pm →
        ∀ p, prev = some p → pmTypeId pm ≠ some p := by
  intro days
  induction days with
  | nil =>
    intro prev ctr
    refine ⟨rfl, rfl, List.chain'_nil, ?_⟩
    intro pm hpm
    simp [shuffleGo] at hpm
  | cons d ds ih =>
    intro prev ctr
    have hkeysne : catalog.map (fun (e : ℕ × List Recipe) => e.1) ≠ [] := by
      intro hk
      have h0 : catalog = [] := by simpa using congrArg List.length hk
      rw [h0] at hlen
      simp at hlen
    generalize havail0 : (match prev with
        | some q => (catalog.map (fun (e : ℕ × List Recipe) => e.1)).filter (fun t => t ≠ q)
        | none => catalog.map (fun (e : ℕ × List Recipe) => e.1)) = avail0
    have hstep : avail0 ≠ [] := by
      rw [← havail0]
      match prev with
      | none => exact hkeysne
      | some q =>
        have hnd2 : (catalog.map (fun (e : ℕ × List Recipe) => e.1)).Nodup := hnd
        have hlen2 : 2 ≤ (catalog.map (fun (e : ℕ × List Recipe) => e.1)).length := by
          simpa using hlen
        exact filter_ne_ne_nil hnd2 hlen2 q
    have hae : avail0.isEmpty = false := by
      rw [List.isEmpty_eq_false]
      exact hstep
    have hsub : ∀ t ∈ avail0, t ∈ catalog.map (fun (e : ℕ × List Recipe) => e.1) ∧
        ∀ p, prev = some p → t ≠ p := by
      intro t ht
      rw [← havail0] at ht
      match prev with
      | none => exact ⟨ht, by simp⟩
      | some q =>
        rw [List.mem_filter] at ht
        refine ⟨ht.1, ?_⟩
        intro p hp
        have h3 := ht.2
        simp only [decide_eq_true_eq] at h3
        rw [Option.some_inj] at hp
        rw [← hp]
        exact h3
    have htmem : avail0.getD (rng ctr % avail0.length) 0 ∈ avail0 :=
      getD_mod_mem hstep _ _
    obtain ⟨htkeys, htne⟩ := hsub _ htmem
    obtain ⟨rs, hrs, hrsmem⟩ := lookup_mem_of_key htkeys
    obtain ⟨hrsne, hrstype⟩ := hent _ hrsmem
    have hrse : rs.isEmpty = false := by
      rw [List.isEmpty_eq_false]
      exact hrsne
    have hrec : rs.getD (rng (ctr + 1) % rs.length) ⟨0, "", false, []⟩ ∈ rs :=
      getD_mod_mem hrsne _ _
    have hrectype : (rs.getD (rng (ctr + 1) % rs.length) ⟨0, "", false, []⟩).mealTypeId =
        avail0.getD (rng ctr % avail0.length) 0 := hrstype _ hrec
    obtain ⟨ihok, ihlen, ihchain, ihhead⟩ :=
      ih (some (avail0.getD (rng ctr % avail0.length) 0)) (ctr + 2)
    have hgo : shuffleGo catalog [] rng (d :: ds) prev ctr =
        (⟨d, some (rs.getD (rng (ctr + 1) % rs.length) ⟨0, "", false, []⟩), false, false⟩ ::
           (shuffleGo catalog [] rng ds
             (some (avail0.getD (rng ctr % avail0.length) 0)) (ctr + 2)).1,
         ⟨d, some (rs.getD (rng (ctr + 1) % rs.length) ⟨0, "", false, []⟩), false, false⟩ ::
           (shuffleGo catalog [] rng ds
             (some (avail0.getD (rng ctr % avail0.length) 0)) (ctr + 2)).2.1,
         (shuffleGo catalog [] rng ds
           (some (avail0.getD (rng ctr % avail0.length) 0)) (ctr + 2)).2.2) := by
      rw [shuffleGo]
      simp only [List.find?_nil, havail0, hae, Bool.false_eq_true, if_false,
        hrs, Option.getD_some, hrse]
    rw [hgo]
    refine ⟨ihok, by simpa using ihlen, ?_, ?_⟩
    · rw [List.chain'_cons']
      refine ⟨?_, ihchain⟩
      intro y hy
      have hne := ihhead y (by simpa using hy) _ rfl
      intro heq
      apply hne
      rw [← heq]
      exact congrArg some hrectype
    · intro pm hpm p hp
      have hpm2 : pm = (⟨d, some (rs.getD (rng (ctr + 1) % rs.length) ⟨0, "", false, []⟩),
          false, false⟩ : PlannedMeal) := (Option.some_inj.mp hpm).symm
      rw [hpm2]
      intro heq
      have heq2 : some ((rs.getD (rng (ctr + 1) % rs.length) ⟨0, "", false, []⟩).mealTypeId) =
          some p := heq
      rw [Option.some_inj] at heq2
      exact htne p hp (hrectype ▸ heq2)

theorem shuffleGo_single (k : ℕ) (rs : List Recipe) (rng : ℕ → ℕ) (hrsne : rs ≠ []) :
    ∀ (days : List ℕ) (prev : Option ℕ) (ctr : ℕ),
      (shuffleGo [(k, rs)] [] rng days prev ctr).2.2 = true ∧
      (shuffleGo [(k, rs)] [] rng days prev ctr).2.1.length = days.length ∧
      ∀ pm ∈ (shuffleGo [(k, rs)] [] rng days prev ctr).2.1,
        ∃ r, r ∈ rs ∧ pm.recipe = some r := by
  intro days
  induction days with
  | nil =>
    intro prev ctr
    refine ⟨rfl, rfl, ?_⟩
    intro pm hpm
    simp [shuffleGo] at hpm
  | cons d ds ih =>
    intro prev ctr
    have hrse : rs.isEmpty = false := by
      rw [List.isEmpty_eq_false]
      exact hrsne
    have hgo : shuffleGo [(k, rs)] [] rng (d :: ds) prev ctr =
        (⟨d, some (rs.getD (rng (ctr + 1) % rs.length) ⟨0, "", false, []⟩), false, false⟩ ::
           (shuffleGo [(k, rs)] [] rng ds (some k) (ctr + 2)).1,
         ⟨d, some (rs.getD (rng (ctr + 1) % rs.length) ⟨0, "", false, []⟩), false, false⟩ ::
           (shuffleGo [(k, rs)] [] rng ds (some k) (ctr + 2)).2.1,
         (shuffleGo [(k, rs)] [] rng ds (some k) (ctr + 2)).2.2) := by
      rw [shuffleGo]
      rcases prev with _ | q
      · simp [List.lookup, Nat.mod_one, hrse]
      · by_cases hq : q = k
        · subst hq
          simp [List.lookup, Nat.mod_one, hrse]
        · have hq2 : ¬k = q := fun h => hq h.symm
          simp [List.lookup, Nat.mod_one, hrse, hq2]
    rw [hgo]
    obtain ⟨ihok, ihlen, ihmem⟩ := ih (some k) (ctr + 2)
    refine ⟨ihok, by simpa using ihlen, ?_⟩
    intro pm hpm
    simp only [List.mem_cons] at hpm
    rcases hpm with rfl | hpm
    · exact ⟨rs.getD (rng (ctr + 1) % rs.length) ⟨0, "", false, []⟩,
        getD_mod_mem hrsne _ _, rfl⟩
    · exact ihmem pm hpm

/-- C7: for a shuffle run on a week plan with no pinned primary meals, (a)
whenever the recipe catalog groups into at least two meal types, the run
completes and fills every requested day, and no two adjacent days in the
returned sequence share their recipe's meal-type id; (b) whenever the
catalog holds exactly one meal type, the fallback allows repeats and the
run completes with a recipe-bearing meal (all of that single type) for
every requested day. -/
theorem C7_shuffle_type_alternation (mealTypeIds : List ℕ) (recipes : List Recipe)
    (wp : WeekPlan) (numDays : ℕ) (rng : ℕ → ℕ)
    (hpin : wp.plannedMeals.filter (fun pm => !pm.isSupplementary && pm.isPinned) = []) :
    (2 ≤ (buildCatalog mealTypeIds recipes).length →
      (shuffle_meals mealTypeIds recipes wp numDays rng).2.2 = true ∧
      (shuffle_meals mealTypeIds recipes wp numDays rng).2.1.length = numDays ∧
      List.Chain' (fun a b => pmTypeId a ≠ pmTypeId b)
        (shuffle_meals mealTypeIds recipes wp numDays rng).2.1)
    ∧ ∀ k rs, buildCatalog mealTypeIds recipes = [(k, rs)] →
      (shuffle_meals mealTypeIds recipes wp numDays rng).2.2 = true ∧
      (shuffle_meals mealTypeIds recipes wp numDays rng).2.1.length = numDays ∧
      ∀ pm ∈ (shuffle_meals mealTypeIds recipes wp numDays rng).2.1,
        (∃ r, r ∈ rs ∧ pm.recipe = some r) ∧ pmTypeId pm = some k := by
  constructor
  · intro h2
    have hne : (buildCatalog mealTypeIds recipes).isEmpty = false := by
      rw [List.isEmpty_eq_false]
      intro h0
      rw [h0] at h2
      simp at h2
    obtain ⟨hnd, hent⟩ := buildCatalog_inv mealTypeIds recipes
    obtain ⟨hok, hlen, hchain, hhead⟩ := shuffleGo_alternates _ rng hnd h2 hent
      (List.range numDays) none 0
    simp only [shuffle_meals, hpin, hne, Bool.false_eq_true, if_false]
    exact ⟨hok, by simpa using hlen, hchain⟩
  · intro k rs heq
    obtain ⟨hnd, hent⟩ := buildCatalog_inv mealTypeIds recipes
    have hkr : (k, rs) ∈ buildCatalog mealTypeIds recipes := by
      rw [heq]
      exact List.mem_singleton_self _
    obtain ⟨hrsne, hrstype⟩ := hent _ hkr
    have hne : (buildCatalog mealTypeIds recipes).isEmpty = false := by
      rw [heq]
      rfl
    obtain ⟨hok, hlen, hmem⟩ := shuffleGo_single k rs rng hrsne (List.range numDays) none 0
    simp only [shuffle_meals, hpin, hne, Bool.false_eq_true, if_false, heq]
    refine ⟨hok, by simpa using hlen, ?_⟩
    intro pm hpm
    obtain ⟨r, hr, hrec⟩ := hmem pm hpm
    refine ⟨⟨r, hr, hrec⟩, ?_⟩
    simp only [pmTypeId, hrec]
    exact congrArg some (hrstype r hr)

theorem C7_shuffle_type_alternation_witness :
    ((⟨[]⟩ : WeekPlan).plannedMeals.filter (fun pm => !pm.isSupplementary && pm.isPinned) = [])
    ∧ ((2 ≤ (buildCatalog [1, 2] [⟨1, "A", false, []⟩, ⟨2, "B", false, []⟩]).length →
      (shuffle_meals [1, 2] [⟨1, "A", false, []⟩, ⟨2, "B", false, []⟩] ⟨[]⟩ 3
        (fun n => n)).2.2 = true ∧
      (shuffle_meals [1, 2] [⟨1, "A", false, []⟩, ⟨2, "B", false, []⟩] ⟨[]⟩ 3
        (fun n => n)).2.1.length = 3 ∧
      List.Chain' (fun a b => pmTypeId a ≠ pmTypeId b)
        (shuffle_meals [1, 2] [⟨1, "A", false, []⟩, ⟨2, "B", false, []⟩] ⟨[]⟩ 3
          (fun n => n)).2.1)
    ∧ ∀ k rs, buildCatalog [1, 2] [⟨1, "A", false, []⟩, ⟨2, "B", false, []⟩] = [(k, rs)] →
      (shuffle_meals [1, 2] [⟨1, "A", false, []⟩, ⟨2, "B", false, []⟩] ⟨[]⟩ 3
        (fun n => n)).2.2 = true ∧
      (shuffle_meals [1, 2] [⟨1, "A", false, []⟩, ⟨2, "B", false, []⟩] ⟨[]⟩ 3
        (fun n => n)).2.1.length = 3 ∧
      ∀ pm ∈ (shuffle_meals [1, 2] [⟨1, "A", false, []⟩, ⟨2, "B", false, []⟩] ⟨[]⟩ 3
          (fun n => n)).2.1,
        (∃ r, r ∈ rs ∧ pm.recipe = some r) ∧ pmTypeId pm = some k) :=
  ⟨rfl, C7_shuffle_type_alternation [1, 2] [⟨1, "A", false, []⟩, ⟨2, "B", false, []⟩]
    ⟨[]⟩ 3 (fun n => n) rfl⟩

/-! ### Augment-mode change report (C10) -/

theorem mem_keys_dinsert {κ ν : Type} [DecidableEq κ] (k k' : κ) (v : ν)
    (l : List (κ × ν)) :
    k' ∈ (dinsert k v l).map Prod.fst ↔ k' ∈ l.map Prod.fst ∨ k' = k := by
  rw [keys_dinsert]
  by_cases h : k ∈ l.map Prod.fst
  · rw [if_pos h]
    constructor
    · exact Or.inl
    · rintro (h1 | rfl)
      exacts [h1, h]
  · rw [if_neg h]
    simp [List.mem_append]

theorem mem_keys_foldl_dinsert {α κ ν : Type} [DecidableEq κ] (f : α → κ) (g : α → ν)
    (l : List α) :
    ∀ (acc : List (κ × ν)) (k : κ),
      k ∈ (l.foldl (fun d e => dinsert (f e) (g e) d) acc).map Prod.fst ↔
        k ∈ acc.map Prod.fst ∨ ∃ e ∈ l, f e = k := by
  induction l with
  | nil => simp
  | cons a t ih =>
    intro acc k
    simp only [List.foldl_cons]
    rw [ih, mem_keys_dinsert]
    constructor
    · rintro ((h1 | h1) | h1)
      · exact Or.inl h1
      · exact Or.inr ⟨a, List.mem_cons_self _ _, h1.symm⟩
      · obtain ⟨e, he, hfe⟩ := h1
        exact Or.inr ⟨e, List.mem_cons_of_mem _ he, hfe⟩
    · rintro (h1 | h1)
      · exact Or.inl (Or.inl h1)
      · obtain ⟨e, he, hfe⟩ := h1
        rcases List.mem_cons.mp he with rfl | he
        · exact Or.inl (Or.inr hfe.symm)
        · exact Or.inr ⟨e, he, hfe⟩

theorem processOne_augment_changes (existing : List (ℕ × ℕ × SItem)) (st : GenState)
    (e : ℕ × IngData) :
    (processOne false true existing [] st e).changes =
      if (existing.lookup e.1).isSome then st.changes
      else { st.changes with
        added := dinsert e.2.ingredient.name (aggregate_quantities e.2.quantities)
          st.changes.added } := by
  by_cases hex : (existing.lookup e.1).isSome
  · rw [if_pos hex]
    obtain ⟨ji, hji⟩ := Option.isSome_iff_exists.mp hex
    simp [processOne, hji]
  · rw [if_neg hex]
    have hnone : existing.lookup e.1 = none := Option.not_isSome_iff_eq_none.mp hex
    simp [processOne, hnone]

theorem foldl_processOne_augment (existing : List (ℕ × ℕ × SItem)) :
    ∀ (l : List (ℕ × IngData)) (st : GenState),
      ((l.foldl (processOne false true existing []) st).changes.updated =
        st.changes.updated) ∧
      ((l.foldl (processOne false true existing []) st).changes.removed =
        st.changes.removed) ∧
      ((l.foldl (processOne false true existing []) st).changes.counts =
        st.changes.counts) ∧
      ((l.foldl (processOne false true existing []) st).changes.added =
        (l.filter (fun e => existing.lookup e.1 = none)).foldl
          (fun d e => dinsert e.2.ingredient.name (aggregate_quantities e.2.quantities) d)
          st.changes.added) := by
  intro l
  induction l with
  | nil => exact fun st => ⟨rfl, rfl, rfl, rfl⟩
  | cons a t ih =>
    intro st
    simp only [List.foldl_cons, List.filter_cons]
    have hch := processOne_augment_changes existing st a
    obtain ⟨h1, h2, h3, h4⟩ := ih (processOne false true existing [] st a)
    by_cases hex : (existing.lookup a.1).isSome
    · rw [if_pos hex] at hch
      have hd : (decide (existing.lookup a.1 = none)) = false := by
        rw [decide_eq_false_iff_not]
        intro h0
        rw [h0] at hex
        simp at hex
      refine ⟨?_, ?_, ?_, ?_⟩
      · rw [h1, hch]
      · rw [h2, hch]
      · rw [h3, hch]
      · rw [h4, hch, hd]
        simp only [Bool.false_eq_true, if_false]
    · rw [if_neg hex] at hch
      have hd : (decide (existing.lookup a.1 = none)) = true := by
        rw [decide_eq_true_eq]
        exact Option.not_isSome_iff_eq_none.mp hex
      refine ⟨?_, ?_, ?_, ?_⟩
      · rw [h1, hch]
      · rw [h2, hch]
      · rw [h3, hch]
      · rw [h4, hch, hd]
        simp only [if_true, List.foldl_cons]

/-- C10: an Augment-mode reconciliation with change tracking reports no
updated and no removed entries whatever the inputs, leaves the counts at
(0, 0, 0), and — when collected ingredient names determine their ids — lists
an ingredient's name under `added` exactly when no existing item on the
target list carries that ingredient; merged ingredients are reported
nowhere. -/
theorem C10_augment_change_report (wp : WeekPlan) (items : List SItem)
    (hinj : ∀ e1 ∈ collect wp, ∀ e2 ∈ collect wp,
      e1.2.ingredient.name = e2.2.ingredient.name → e1.1 = e2.1) :
    (generate_shopping_list wp items false true).2.updated = [] ∧
    (generate_shopping_list wp items false true).2.removed = [] ∧
    (generate_shopping_list wp items false true).2.counts = (0, 0, 0) ∧
    ∀ e ∈ collect wp,
      (e.2.ingredient.name ∈
          (generate_shopping_list wp items false true).2.added.map Prod.fst ↔
        (buildExisting items).lookup e.1 = none) := by
  have hred : (generate_shopping_list wp items false true).2 =
      ((collect wp).foldl (processOne false true (buildExisting items) [])
        ⟨[], [], ⟨[], [], [], (0, 0, 0)⟩⟩).changes := by
    simp [generate_shopping_list]
  obtain ⟨h1, h2, h3, h4⟩ := foldl_processOne_augment (buildExisting items) (collect wp)
    ⟨[], [], ⟨[], [], [], (0, 0, 0)⟩⟩
  rw [hred]
  refine ⟨h1, h2, h3, ?_⟩
  intro e he
  rw [h4, mem_keys_foldl_dinsert]
  simp only [List.map_nil, List.not_mem_nil, false_or]
  constructor
  · rintro ⟨e2, he2, hname⟩
    rw [List.mem_filter] at he2
    have hkey := hinj e2 he2.1 e he hname
    have hn2 := he2.2
    rw [decide_eq_true_eq] at hn2
    rw [← hkey]
    exact hn2
  · intro hnone
    refine ⟨e, List.mem_filter.mpr ⟨he, ?_⟩, rfl⟩
    rw [decide_eq_true_eq]
    exact hnone

theorem C10_augment_change_report_witness :
    (∀ e1 ∈ collect ⟨[⟨0, some ⟨1, "Toast",  false,
        [⟨⟨5, "Eggs", ⟨3, "Dairy"⟩, false⟩, "2"⟩]⟩, false, false⟩]⟩,
      ∀ e2 ∈ collect ⟨[⟨0, some ⟨1, "Toast", false,
        [⟨⟨5, "Eggs", ⟨3, "Dairy"⟩, false⟩, "2"⟩]⟩, false, false⟩]⟩,
      e1.2.ingredient.name = e2.2.ingredient.name → e1.1 = e2.1) ∧
    ((generate_shopping_list ⟨[⟨0, some ⟨1, "Toast", false,
        [⟨⟨5, "Eggs", ⟨3, "Dairy"⟩, false⟩, "2"⟩]⟩, false, false⟩]⟩ [] false
        true).2.updated = [] ∧
      (generate_shopping_list ⟨[⟨0, some ⟨1, "Toast", false,
        [⟨⟨5, "Eggs", ⟨3, "Dairy"⟩, false⟩, "2"⟩]⟩, false, false⟩]⟩ [] false
        true).2.removed = [] ∧
      (generate_shopping_list ⟨[⟨0, some ⟨1, "Toast", false,
        [⟨⟨5, "Eggs", ⟨3, "Dairy"⟩, false⟩, "2"⟩]⟩, false, false⟩]⟩ [] false
        true).2.counts = (0, 0, 0) ∧
      ∀ e ∈ collect ⟨[⟨0, some ⟨1, "Toast", false,
        [⟨⟨5, "Eggs", ⟨3, "Dairy"⟩, false⟩, "2"⟩]⟩, false, false⟩]⟩,
        (e.2.ingredient.name ∈
            (generate_shopping_list ⟨[⟨0, some ⟨1, "Toast", false,
              [⟨⟨5, "Eggs", ⟨3, "Dairy"⟩, false⟩, "2"⟩]⟩, false, false⟩]⟩ [] false
              true).2.added.map Prod.fst ↔
          (buildExisting []).lookup e.1 = none)) :=
  ⟨by decide, C10_augment_change_report ⟨[⟨0, some ⟨1, "Toast", false,
      [⟨⟨5, "Eggs", ⟨3, "Dairy"⟩, false⟩, "2"⟩]⟩, false, false⟩]⟩ [] (by decide)⟩

/-! ### Reconciler groundwork: lookup and stable-sort membership -/

theorem lookup_mem {κ ν : Type} [DecidableEq κ] :
    ∀ {l : List (κ × ν)} {k : κ} {v : ν}, l.lookup k = some v → (k, v) ∈ l := by
  intro l
  induction l with
  | nil => intro k v h; simp [List.lookup] at h
  | cons a t ih =>
    intro k v h
    obtain ⟨k0, v0⟩ := a
    by_cases hk : k = k0
    · subst hk
      simp only [List.lookup, beq_self_eq_true] at h
      rw [Option.some_inj] at h
      subst h
      exact List.mem_cons_self _ _
    · have hbeq : (k == k0) = false := by simpa using hk
      simp only [List.lookup, hbeq] at h
      exact List.mem_cons_of_mem _ (ih h)

theorem lookup_none_iff_keys {κ ν : Type} [DecidableEq κ] {l : List (κ × ν)} {k : κ} :
    l.lookup k = none ↔ k ∉ l.map Prod.fst := by
  constructor
  · intro h hk
    obtain ⟨v, hv, _⟩ := lookup_mem_of_key hk
    rw [h] at hv
    exact Option.noConfusion hv
  · intro h
    cases hl : l.lookup k with
    | none => rfl
    | some v =>
      exact absurd (List.mem_map_of_mem Prod.fst (lookup_mem hl)) h

theorem lookup_eq_some_iff_mem_nodupkeys {κ ν : Type} [DecidableEq κ] :
    ∀ {l : List (κ × ν)}, (l.map Prod.fst).Nodup → ∀ {k : κ} {v : ν},
      (l.lookup k = some v ↔ (k, v) ∈ l) := by
  intro l
  induction l with
  | nil => intro _ k v; simp [List.lookup]
  | cons a t ih =>
    intro hnd k v
    obtain ⟨k0, v0⟩ := a
    simp only [List.map_cons, List.nodup_cons] at hnd
    by_cases hk : k = k0
    · subst hk
      simp only [List.lookup, beq_self_eq_true, List.mem_cons]
      constructor
      · intro h
        rw [Option.some_inj] at h
        exact Or.inl (by rw [h])
      · rintro (h | h)
        · rw [Option.some_inj]
          exact (congrArg Prod.snd h).symm
        · exact absurd (List.mem_map_of_mem Prod.fst h) hnd.1
    · have hbeq : (k == k0) = false := by simpa using hk
      simp only [List.lookup, hbeq, List.mem_cons]
      rw [ih hnd.2]
      constructor
      · exact Or.inr
      · rintro (h | h)
        · exact absurd (congrArg Prod.fst h) hk
        · exact h

theorem mem_insertLe {α : Type} (le : α → α → Bool) (y : α) :
    ∀ (l : List α) (x : α), x ∈ insertLe le y l ↔ x = y ∨ x ∈ l := by
  intro l
  induction l with
  | nil => intro x; simp [insertLe]
  | cons a t ih =>
    intro x
    simp only [insertLe]
    by_cases h : le a y
    · rw [if_pos h]
      simp only [List.mem_cons, ih]
      tauto
    · rw [if_neg h]
      simp only [List.mem_cons]

theorem mem_foldl_insertLe {α : Type} (le : α → α → Bool) :
    ∀ (l acc : List α) (x : α),
      x ∈ l.foldl (fun acc y => insertLe le y acc) acc ↔ x ∈ acc ∨ x ∈ l := by
  intro l
  induction l with
  | nil => intro acc x; simp
  | cons a t ih =>
    intro acc x
    simp only [List.foldl_cons]
    rw [ih, mem_insertLe]
    simp only [List.mem_cons]
    tauto

theorem mem_stableSortBy {α : Type} (le : α → α → Bool) (l : List α) (x : α) :
    x ∈ stableSortBy le l ↔ x ∈ l := by
  rw [stableSortBy, mem_foldl_insertLe]
  simp

theorem mem_fetchOrder {items : List SItem} {ji : ℕ × SItem} :
    ji ∈ fetchOrder items ↔ items[ji.1]? = some ji.2 := by
  rw [fetchOrder, mem_stableSortBy]
  exact List.mem_enum_iff_getElem?

theorem buildExisting_keys_nodup (items : List SItem) :
    ((buildExisting items).map Prod.fst).Nodup := by
  rw [buildExisting]
  have main : ∀ (l : List (ℕ × SItem)) (acc : List (ℕ × ℕ × SItem)),
      (acc.map Prod.fst).Nodup →
      ((l.foldl (fun d ji => match ji.2.ingredient with
        | some ing => if ing.id = 0 then d else dinsert ing.id (ji.1, ji.2) d
        | none => d) acc).map Prod.fst).Nodup := by
    intro l
    induction l with
    | nil => exact fun acc h => h
    | cons a t ih =>
      intro acc h
      simp only [List.foldl_cons]
      cases hing : a.2.ingredient with
      | none => exact ih acc h
      | some ing =>
        by_cases hz : ing.id = 0
        · simp only [hing, if_pos hz]
          exact ih acc h
        · simp only [hing, if_neg hz]
          exact ih _ (keys_nodup_dinsert _ _ h)
  exact main _ [] (by simp)

theorem buildExisting_mem (items : List SItem) :
    ∀ e ∈ buildExisting items, items[e.2.1]? = some e.2.2 ∧
      ∃ ing, e.2.2.ingredient = some ing ∧ ing.id = e.1 ∧ e.1 ≠ 0 := by
  rw [buildExisting]
  have main : ∀ (l : List (ℕ × SItem)) (acc : List (ℕ × ℕ × SItem)),
      (∀ ji ∈ l, items[ji.1]? = some ji.2) →
      (∀ e ∈ acc, items[e.2.1]? = some e.2.2 ∧
        ∃ ing, e.2.2.ingredient = some ing ∧ ing.id = e.1 ∧ e.1 ≠ 0) →
      ∀ e ∈ l.foldl (fun d ji => match ji.2.ingredient with
        | some ing => if ing.id = 0 then d else dinsert ing.id (ji.1, ji.2) d
        | none => d) acc,
        items[e.2.1]? = some e.2.2 ∧
        ∃ ing, e.2.2.ingredient = some ing ∧ ing.id = e.1 ∧ e.1 ≠ 0 := by
    intro l
    induction l with
    | nil => exact fun acc _ hacc => hacc
    | cons a t ih =>
      intro acc hl hacc
      simp only [List.foldl_cons]
      refine ih _ (fun ji hji => hl ji (List.mem_cons_of_mem _ hji)) ?_
      cases hing : a.2.ingredient with
      | none => exact hacc
      | some ing =>
        by_cases hz : ing.id = 0
        · simp only [if_pos hz]
          exact hacc
        · simp only [if_neg hz]
          intro e he
          rcases mem_dinsert he with rfl | he
          · exact ⟨hl a (List.mem_cons_self _ _), ing, hing, rfl, hz⟩
          · exact hacc e he
  exact main _ [] (fun ji hji => mem_fetchOrder.mp hji) (by simp)

theorem mem_keys_buildExisting (items : List SItem) (k : ℕ) :
    k ∈ (buildExisting items).map Prod.fst ↔
      ∃ it ∈ items, ∃ ing, it.ingredient = some ing ∧ ing.id = k ∧ k ≠ 0 := by
  rw [buildExisting]
  have main : ∀ (l : List (ℕ × SItem)) (acc : List (ℕ × ℕ × SItem)),
      (k ∈ (l.foldl (fun d ji => match ji.2.ingredient with
        | some ing => if ing.id = 0 then d else dinsert ing.id (ji.1, ji.2) d
        | none => d) acc).map Prod.fst ↔
      k ∈ acc.map Prod.fst ∨
        ∃ ji ∈ l, ∃ ing, ji.2.ingredient = some ing ∧ ing.id = k ∧ k ≠ 0) := by
    intro l
    induction l with
    | nil => simp
    | cons a t ih =>
      intro acc
      simp only [List.foldl_cons]
      cases hing : a.2.ingredient with
      | none =>
        refine Iff.trans (ih acc) ?_
        constructor
        · rintro (h | ⟨ji, hji, ing, hi, hrest⟩)
          · exact Or.inl h
          · exact Or.inr ⟨ji, List.mem_cons_of_mem _ hji, ing, hi, hrest⟩
        · rintro (h | ⟨ji, hji, ing, hi, hrest⟩)
          · exact Or.inl h
          · rcases List.mem_cons.mp hji with rfl | hji
            · rw [hing] at hi
              exact Option.noConfusion hi
            · exact Or.inr ⟨ji, hji, ing, hi, hrest⟩
      | some ing =>
        by_cases hz : ing.id = 0
        · simp only [hing, if_pos hz]
          refine Iff.trans (ih acc) ?_
          constructor
          · rintro (h | ⟨ji, hji, ing2, hi, hrest⟩)
            · exact Or.inl h
            · exact Or.inr ⟨ji, List.mem_cons_of_mem _ hji, ing2, hi, hrest⟩
          · rintro (h | ⟨ji, hji, ing2, hi, hid, hk⟩)
            · exact Or.inl h
            · rcases List.mem_cons.mp hji with rfl | hji
              · rw [hing] at hi
                rw [Option.some_inj] at hi
                subst hi
                exact absurd (hz ▸ hid) (Ne.symm hk)
              · exact Or.inr ⟨ji, hji, ing2, hi, hid, hk⟩
        · simp only [hing, if_neg hz]
          refine Iff.trans (ih (dinsert ing.id (a.1, a.2) acc)) ?_
          refine Iff.trans
            (or_congr (mem_keys_dinsert ing.id k (a.1, a.2) acc) Iff.rfl) ?_
          constructor
          · rintro ((h | rfl) | ⟨ji, hji, ing2, hi, hid, hk⟩)
            · exact Or.inl h
            · exact Or.inr ⟨a, List.mem_cons_self _ _, ing, hing, rfl, hz⟩
            · exact Or.inr ⟨ji, List.mem_cons_of_mem _ hji, ing2, hi, hid, hk⟩
          · rintro (h | ⟨ji, hji, ing2, hi, hid, hk⟩)
            · exact Or.inl (Or.inl h)
            · rcases List.mem_cons.mp hji with rfl | hji
              · rw [hing] at hi
                rw [Option.some_inj] at hi
                subst hi
                exact Or.inl (Or.inr hid.symm)
              · exact Or.inr ⟨ji, hji, ing2, hi, hid, hk⟩
  refine Iff.trans (main _ []) ?_
  constructor
  · rintro (h | ⟨ji, hji, ing, hi, hid, hk⟩)
    · simp at h
    · exact ⟨ji.2, List.mem_iff_getElem?.mpr ⟨ji.1, mem_fetchOrder.mp hji⟩,
        ing, hi, hid, hk⟩
  · rintro ⟨it, hit, ing, hi, hid, hk⟩
    obtain ⟨j, hj⟩ := List.mem_iff_getElem?.mp hit
    exact Or.inr ⟨(j, it), mem_fetchOrder.mpr hj, ing, hi, hid, hk⟩

theorem keys_addQty (ing : Ingredient) (q : String) :
    ∀ acc : List (ℕ × IngData),
      (addQty acc ing q).map Prod.fst =
        if ing.id ∈ acc.map Prod.fst then acc.map Prod.fst
        else acc.map Prod.fst ++ [ing.id] := by
  intro acc
  induction acc with
  | nil => simp [addQty]
  | cons a t ih =>
    obtain ⟨k, d⟩ := a
    by_cases hk : k = ing.id
    · subst hk
      simp [addQty]
    · simp only [addQty, if_neg hk, List.map_cons, ih]
      have hne : ¬ing.id = k := fun h => hk h.symm
      by_cases hm : ing.id ∈ t.map Prod.fst
      · simp [hm, List.mem_cons, hne]
      · simp [hm, List.mem_cons, hne]

theorem keys_nodup_addQty (ing : Ingredient) (q : String) (acc : List (ℕ × IngData))
    (h : (acc.map Prod.fst).Nodup) : ((addQty acc ing q).map Prod.fst).Nodup := by
  rw [keys_addQty]
  by_cases hm : ing.id ∈ acc.map Prod.fst
  · rw [if_pos hm]
    exact h
  · rw [if_neg hm]
    simp [List.nodup_append, h, hm]

theorem addQty_mem_id (ing : Ingredient) (q : String) :
    ∀ acc : List (ℕ × IngData),
      (∀ e ∈ acc, e.2.ingredient.id = e.1) →
      ∀ e ∈ addQty acc ing q, e.2.ingredient.id = e.1 := by
  intro acc
  induction acc with
  | nil =>
    intro _ e he
    simp only [addQty, List.mem_singleton] at he
    subst he
    rfl
  | cons a t ih =>
    obtain ⟨k, d⟩ := a
    intro h e he
    by_cases hk : k = ing.id
    · simp only [addQty, if_pos hk, List.mem_cons] at he
      rcases he with rfl | he
      · exact h (k, d) (List.mem_cons_self _ _)
      · exact h e (List.mem_cons_of_mem _ he)
    · simp only [addQty, if_neg hk, List.mem_cons] at he
      rcases he with rfl | he
      · exact h (k, d) (List.mem_cons_self _ _)
      · exact ih (fun e2 he2 => h e2 (List.mem_cons_of_mem _ he2)) e he

theorem collect_keys_nodup (wp : WeekPlan) : ((collect wp).map Prod.fst).Nodup := by
  rw [collect]
  have inner : ∀ (ris : List RecipeIngredient) (acc : List (ℕ × IngData)),
      (acc.map Prod.fst).Nodup →
      ((ris.foldl (fun acc ri => addQty acc ri.ingredient ri.quantity) acc).map
        Prod.fst).Nodup := by
    intro ris
    induction ris with
    | nil => exact fun acc h => h
    | cons ri ris ih =>
      intro acc h
      simp only [List.foldl_cons]
      exact ih _ (keys_nodup_addQty _ _ _ h)
  have outer : ∀ (pms : List PlannedMeal) (acc : List (ℕ × IngData)),
      (acc.map Prod.fst).Nodup →
      ((pms.foldl (fun acc pm => match pm.recipe with
        | none => acc
        | some r => (stableSortBy riLe r.recipeIngredients).foldl
            (fun acc ri => addQty acc ri.ingredient ri.quantity) acc) acc).map
        Prod.fst).Nodup := by
    intro pms
    induction pms with
    | nil => exact fun acc h => h
    | cons pm pms ih =>
      intro acc h
      simp only [List.foldl_cons]
      cases hrec : pm.recipe with
      | none => exact ih acc h
      | some r => exact ih _ (inner _ _ h)
  exact outer _ [] (by simp)

theorem collect_mem_id (wp : WeekPlan) :
    ∀ e ∈ collect wp, e.2.ingredient.id = e.1 := by
  rw [collect]
  have inner : ∀ (ris : List RecipeIngredient) (acc : List (ℕ × IngData)),
      (∀ e ∈ acc, e.2.ingredient.id = e.1) →
      ∀ e ∈ ris.foldl (fun acc ri => addQty acc ri.ingredient ri.quantity) acc,
        e.2.ingredient.id = e.1 := by
    intro ris
    induction ris with
    | nil => exact fun acc h => h
    | cons ri ris ih =>
      intro acc h
      simp only [List.foldl_cons]
      exact ih _ (addQty_mem_id _ _ _ h)
  have outer : ∀ (pms : List PlannedMeal) (acc : List (ℕ × IngData)),
      (∀ e ∈ acc, e.2.ingredient.id = e.1) →
      ∀ e ∈ pms.foldl (fun acc pm => match pm.recipe with
        | none => acc
        | some r => (stableSortBy riLe r.recipeIngredients).foldl
            (fun acc ri => addQty acc ri.ingredient ri.quantity) acc) acc,
        e.2.ingredient.id = e.1 := by
    intro pms
    induction pms with
    | nil => exact fun acc h => h
    | cons pm pms ih =>
      intro acc h
      simp only [List.foldl_cons]
      cases hrec : pm.recipe with
      | none => exact ih acc h
      | some r => exact ih _ (inner _ _ h)
  exact outer _ [] (by simp)

theorem processOne_replace_creates (rc : Bool) (old : List (ℕ × String × String))
    (st : GenState) (e : ℕ × IngData) :
    (processOne true rc [] old st e).creates =
      st.creates ++ [mkItem e.2.ingredient (aggregate_quantities e.2.quantities)
        e.2.isPantry] := by
  simp only [processOne, List.lookup_nil, Option.isSome_none, Bool.false_eq_true,
    false_and, if_false]
  repeat' split
  all_goals simp

theorem processOne_replace_updates (rc : Bool) (old : List (ℕ × String × String))
    (st : GenState) (e : ℕ × IngData) :
    (processOne true rc [] old st e).updates = st.updates := by
  simp only [processOne, List.lookup_nil, Option.isSome_none, Bool.false_eq_true,
    false_and, if_false]
  repeat' split
  all_goals simp

theorem foldl_processOne_replace (rc : Bool) (old : List (ℕ × String × String)) :
    ∀ (l : List (ℕ × IngData)) (st : GenState),
      (l.foldl (processOne true rc [] old) st).creates =
        st.creates ++ l.map (fun e => mkItem e.2.ingredient
          (aggregate_quantities e.2.quantities) e.2.isPantry) ∧
      (l.foldl (processOne true rc [] old) st).updates = st.updates := by
  intro l
  induction l with
  | nil => intro st; simp
  | cons a t ih =>
    intro st
    simp only [List.foldl_cons, List.map_cons]
    obtain ⟨ih1, ih2⟩ := ih (processOne true rc [] old st a)
    constructor
    · rw [ih1, processOne_replace_creates]
      simp
    · rw [ih2, processOne_replace_updates]

theorem generate_replace_items (wp : WeekPlan) (items : List SItem) (rc : Bool) :
    (generate_shopping_list wp items true rc).1 =
      items.filter (fun it => it.isManual) ++
      (collect wp).map (fun e => mkItem e.2.ingredient
        (aggregate_quantities e.2.quantities) e.2.isPantry) := by
  simp only [generate_shopping_list, if_true, and_true]
  rw [(foldl_processOne_replace rc _ (collect wp) _).1]
  simp

theorem processOne_augment_updates_step (rc : Bool) (existing : List (ℕ × ℕ × SItem))
    (old : List (ℕ × String × String)) (st : GenState) (e : ℕ × IngData) :
    ∃ ups, (processOne false rc existing old st e).updates = st.updates ++ ups ∧
      ∀ u ∈ ups, ∃ k ji, existing.lookup k = some ji ∧ u.1 = ji.1 ∧
        itemFrame ji.2 u.2 := by
  by_cases hex : (existing.lookup e.1).isSome
  · obtain ⟨ji, hji⟩ := Option.isSome_iff_exists.mp hex
    refine ⟨[(ji.1, { ji.2 with
        quantities := aggregate_quantities [ji.2.quantities,
          aggregate_quantities e.2.quantities],
        isPantryItem := if ¬ji.2.isManual ∧ ¬ji.2.isPantryOverride then e.2.isPantry
          else ji.2.isPantryItem })], ?_, ?_⟩
    · simp [processOne, hji]
    · intro u hu
      rw [List.mem_singleton] at hu
      subst hu
      refine ⟨e.1, ji, hji, rfl, rfl, rfl, rfl, rfl, rfl, rfl, rfl, ?_⟩
      intro hman
      simp [hman]
  · have hnone : existing.lookup e.1 = none := Option.not_isSome_iff_eq_none.mp hex
    refine ⟨[], ?_, by simp⟩
    simp only [processOne, hnone]
    simp
    split <;> rfl

theorem foldl_processOne_augment_updates (rc : Bool) (existing : List (ℕ × ℕ × SItem))
    (old : List (ℕ × String × String)) :
    ∀ (l : List (ℕ × IngData)) (st : GenState),
      ∃ ups, (l.foldl (processOne false rc existing old) st).updates =
          st.updates ++ ups ∧
        ∀ u ∈ ups, ∃ k ji, existing.lookup k = some ji ∧ u.1 = ji.1 ∧
          itemFrame ji.2 u.2 := by
  intro l
  induction l with
  | nil => exact fun st => ⟨[], by simp, by simp⟩
  | cons a t ih =>
    intro st
    simp only [List.foldl_cons]
    obtain ⟨ups1, h1, hp1⟩ := processOne_augment_updates_step rc existing old st a
    obtain ⟨ups2, h2, hp2⟩ := ih (processOne false rc existing old st a)
    refine ⟨ups1 ++ ups2, ?_, ?_⟩
    · rw [h2, h1, List.append_assoc]
    · intro u hu
      rcases List.mem_append.mp hu with hu | hu
      · exact hp1 u hu
      · exact hp2 u hu

theorem applyUpdates_getElem (items : List SItem) (ups : List (ℕ × SItem)) (j : ℕ)
    (hj : j < items.length) :
    (applyUpdates items ups)[j]? = some (match ups.lookup j with
      | some it => it
      | none => items[j]) := by
  rw [applyUpdates, List.getElem?_map, List.getElem?_enum,
    List.getElem?_eq_getElem hj]
  rfl

theorem applyUpdates_length (items : List SItem) (ups : List (ℕ × SItem)) :
    (applyUpdates items ups).length = items.length := by
  rw [applyUpdates, List.length_map, List.enum_length]

theorem generate_augment_items (wp : WeekPlan) (items : List SItem) (rc : Bool) :
    (generate_shopping_list wp items false rc).1 =
      applyUpdates items ((collect wp).foldl
        (processOne false rc (buildExisting items) [])
        ⟨[], [], ⟨[], [], [], (0, 0, 0)⟩⟩).updates ++
      ((collect wp).foldl (processOne false rc (buildExisting items) [])
        ⟨[], [], ⟨[], [], [], (0, 0, 0)⟩⟩).creates := by
  simp [generate_shopping_list]

/-- C3 counterexample: the claim that Replace-mode reconciliation merges into
a surviving manual item so that each non-null ingredient keys at most one
item is false: a manual item aliasing a collected ingredient yields two items
carrying that ingredient after a Replace run. -/
theorem C3_counterexample :
    ¬ ∀ (wp : WeekPlan) (items : List SItem) (rc : Bool) (ing : Ingredient),
        ((generate_shopping_list wp items true rc).1.filter
          (fun it => it.ingredient = some ing)).length ≤ 1 := by
  intro h
  have h2 := h ⟨[⟨0, some ⟨1, "Toast", false, [⟨⟨5, "Eggs", ⟨3, "Dairy"⟩, false⟩, "5"⟩]⟩, false, false⟩]⟩
    [⟨some ⟨5, "Eggs", ⟨3, "Dairy"⟩, false⟩, "Eggs", some ⟨3, "Dairy"⟩, "2", false, true, false, false, false⟩] false ⟨5, "Eggs", ⟨3, "Dairy"⟩, false⟩
  revert h2
  decide

/-- C3 amended: Replace mode never merges into surviving manual items — the
result is exactly the unchanged manual survivors followed by one freshly
created item per collected ingredient. -/
theorem C3_replace_no_merge (wp : WeekPlan) (items : List SItem) (rc : Bool) :
    (generate_shopping_list wp items true rc).1 =
      items.filter (fun it => it.isManual) ++
      (collect wp).map (fun e => mkItem e.2.ingredient
        (aggregate_quantities e.2.quantities) e.2.isPantry) :=
  generate_replace_items wp items rc

/-- C2 counterexample: the claim that a manual item survives every
reconciliation unmodified in its quantity text is false: an Augment run
merges newly collected quantities into a manual item that carries the same
ingredient, rewriting its quantity text. -/
theorem C2_counterexample :
    ¬ ∀ (wp : WeekPlan) (items : List SItem) (replace rc : Bool),
      ∀ it ∈ items, it.isManual = true →
        ∃ jt ∈ (generate_shopping_list wp items replace rc).1,
          jt.isManual = true ∧ jt.name = it.name ∧ jt.quantities = it.quantities := by
  intro h
  have h2 := h ⟨[⟨0, some ⟨1, "Toast", false, [⟨⟨5, "Eggs", ⟨3, "Dairy"⟩, false⟩, "5"⟩]⟩, false, false⟩]⟩
    [⟨some ⟨5, "Eggs", ⟨3, "Dairy"⟩, false⟩, "Eggs", some ⟨3, "Dairy"⟩, "2", false, true, false, false, false⟩] false false
    ⟨some ⟨5, "Eggs", ⟨3, "Dairy"⟩, false⟩, "Eggs", some ⟨3, "Dairy"⟩, "2", false, true, false, false, false⟩ (by decide) (by decide)
  revert h2
  decide

/-- C2 amended: Replace mode preserves the manual items exactly — the manual
items of the output are precisely the input's manual items, field for field,
quantity text included (the non-manual items are deleted and regenerated);
Augment mode keeps every item — manual items included — at its position with
ingredient, name, category, manual flag, checked flag, pantry-override flag
and star intact, and for manual items the pantry flag as well, but the
quantity text of a manual item whose ingredient is collected from the plan
is re-aggregated in place. -/
theorem C2_manual_preservation (wp : WeekPlan) (items : List SItem) (rc : Bool) :
    ((generate_shopping_list wp items true rc).1.filter (fun it => it.isManual) =
      items.filter (fun it => it.isManual)) ∧
    ∀ j (hj : j < items.length),
      ∃ hj2 : j < (generate_shopping_list wp items false rc).1.length,
        itemFrame (items.get ⟨j, hj⟩)
          ((generate_shopping_list wp items false rc).1.get ⟨j, hj2⟩) := by
  constructor
  · rw [generate_replace_items, List.filter_append]
    have hc : ((collect wp).map (fun e => mkItem e.2.ingredient
        (aggregate_quantities e.2.quantities) e.2.isPantry)).filter
          (fun it => it.isManual) = [] := by
      rw [List.filter_eq_nil_iff]
      intro x hx
      obtain ⟨e, _, hxe⟩ := List.mem_map.mp hx
      subst hxe
      simp [mkItem]
    rw [hc, List.append_nil, List.filter_filter]
    simp
  · intro j hj
    obtain ⟨ups, hups, hprop⟩ := foldl_processOne_augment_updates rc
      (buildExisting items) [] (collect wp) ⟨[], [], ⟨[], [], [], (0, 0, 0)⟩⟩
    have hlen : j < (generate_shopping_list wp items false rc).1.length := by
      rw [generate_augment_items, List.length_append, applyUpdates_length]
      omega
    refine ⟨hlen, ?_⟩
    have hget : (generate_shopping_list wp items false rc).1[j]? =
        some ((generate_shopping_list wp items false rc).1.get ⟨j, hlen⟩) :=
      List.getElem?_eq_getElem hlen
    have hj3 : j < (applyUpdates items ((collect wp).foldl
        (processOne false rc (buildExisting items) [])
        ⟨[], [], ⟨[], [], [], (0, 0, 0)⟩⟩).updates).length := by
      rw [applyUpdates_length]
      exact hj
    have hval : (generate_shopping_list wp items false rc).1[j]? =
        some (match ups.lookup j with
          | some it => it
          | none => items[j]) := by
      rw [generate_augment_items, List.getElem?_append_left hj3,
        applyUpdates_getElem _ _ _ hj, hups]
      simp only [List.nil_append]
    have hget2 := hget.symm.trans hval
    rw [Option.some_inj] at hget2
    cases hl : ups.lookup j with
    | none =>
      rw [hl] at hget2
      rw [hget2]
      exact ⟨rfl, rfl, rfl, rfl, rfl, rfl, rfl, fun _ => rfl⟩
    | some u =>
      rw [hl] at hget2
      obtain ⟨k, ji, hji, hju, hframe⟩ := hprop (j, u) (lookup_mem hl)
      have hju2 : j = ji.1 := hju
      have hmem := buildExisting_mem items _ (lookup_mem hji)
      have hitems : items[ji.1]? = some ji.2 := hmem.1
      have heq : ji.2 = items.get ⟨j, hj⟩ := by
        rw [← hju2] at hitems
        rw [List.getElem?_eq_getElem hj] at hitems
        rw [Option.some_inj] at hitems
        exact hitems.symm
      rw [hget2, ← heq]
      exact hframe

theorem C2_manual_preservation_witness :
    (0 : ℕ) < ([⟨some ⟨5, "Eggs", ⟨3, "Dairy"⟩, false⟩, "Eggs", some ⟨3, "Dairy"⟩, "2", false, true, false, false, false⟩] : List SItem).length ∧
    ∃ hj2 : 0 < (generate_shopping_list ⟨[⟨0, some ⟨1, "Toast", false, [⟨⟨5, "Eggs", ⟨3, "Dairy"⟩, false⟩, "5"⟩]⟩, false, false⟩]⟩
        [⟨some ⟨5, "Eggs", ⟨3, "Dairy"⟩, false⟩, "Eggs", some ⟨3, "Dairy"⟩, "2", false, true, false, false, false⟩] false false).1.length,
      itemFrame (([⟨some ⟨5, "Eggs", ⟨3, "Dairy"⟩, false⟩, "Eggs", some ⟨3, "Dairy"⟩, "2", false, true, false, false, false⟩] : List SItem).get ⟨0, by decide⟩)
        ((generate_shopping_list ⟨[⟨0, some ⟨1, "Toast", false, [⟨⟨5, "Eggs", ⟨3, "Dairy"⟩, false⟩, "5"⟩]⟩, false, false⟩]⟩
          [⟨some ⟨5, "Eggs", ⟨3, "Dairy"⟩, false⟩, "Eggs", some ⟨3, "Dairy"⟩, "2", false, true, false, false, false⟩] false false).1.get ⟨0, hj2⟩) :=
  ⟨by decide, (C2_manual_preservation ⟨[⟨0, some ⟨1, "Toast", false, [⟨⟨5, "Eggs", ⟨3, "Dairy"⟩, false⟩, "5"⟩]⟩, false, false⟩]⟩
    [⟨some ⟨5, "Eggs", ⟨3, "Dairy"⟩, false⟩, "Eggs", some ⟨3, "Dairy"⟩, "2", false, true, false, false, false⟩] false).2 0 (by decide)⟩

theorem foldl_processOne_replace_nochange (old : List (ℕ × String × String)) :
    ∀ (l : List (ℕ × IngData)),
      (∀ e ∈ l, ∃ nm, old.lookup e.1 = some (nm, aggregate_quantities e.2.quantities)) →
      ∀ st, (l.foldl (processOne true true [] old) st).changes = st.changes := by
  intro l
  induction l with
  | nil => exact fun _ st => rfl
  | cons a t ih =>
    intro h st
    simp only [List.foldl_cons]
    obtain ⟨nm, hnm⟩ := h a (List.mem_cons_self _ _)
    have hch : (processOne true true [] old st a).changes = st.changes := by
      simp [processOne, hnm]
    rw [ih (fun e he => h e (List.mem_cons_of_mem _ he)) (processOne true true [] old st a),
      hch]

theorem addRemoved_skip :
    ∀ (old : List (ℕ × String × String)) (changes : Changes)
      (collected : List (ℕ × IngData)),
      (∀ p ∈ old, ((collected.lookup p.1).isSome = true)) →
      addRemoved changes old collected = changes := by
  intro old
  induction old with
  | nil => exact fun _ _ _ => rfl
  | cons p t ih =>
    intro changes collected h
    simp only [addRemoved, List.foldl_cons]
    rw [if_pos (h p (List.mem_cons_self _ _))]
    exact ih changes collected (fun q hq => h q (List.mem_cons_of_mem _ hq))

theorem oldItems_keys_nodup (items : List SItem) :
    ((((buildExisting items).filter (fun x => ¬x.2.2.isManual)).map
      (fun x => (x.1, x.2.2.name, x.2.2.quantities))).map Prod.fst).Nodup := by
  rw [List.map_map]
  have heq : ((buildExisting items).filter (fun x => ¬x.2.2.isManual)).map
      (Prod.fst ∘ fun x => (x.1, x.2.2.name, x.2.2.quantities)) =
      ((buildExisting items).filter (fun x => ¬x.2.2.isManual)).map Prod.fst :=
    List.map_congr_left (fun a _ => rfl)
  rw [heq]
  exact List.Nodup.sublist (List.Sublist.map Prod.fst (List.filter_sublist _))
    (buildExisting_keys_nodup items)

theorem generate_replace_changes_empty (wp : WeekPlan) (its : List SItem)
    (hold : ∀ e ∈ collect wp, ∃ nm,
      (((buildExisting its).filter (fun x => ¬x.2.2.isManual)).map
        (fun x => (x.1, x.2.2.name, x.2.2.quantities))).lookup e.1 =
        some (nm, aggregate_quantities e.2.quantities))
    (hall : ∀ p ∈ ((buildExisting its).filter (fun x => ¬x.2.2.isManual)).map
        (fun x => (x.1, x.2.2.name, x.2.2.quantities)),
      ((collect wp).lookup p.1).isSome = true) :
    (generate_shopping_list wp its true true).2 = ⟨[], [], [], (0, 0, 0)⟩ := by
  have hst := foldl_processOne_replace_nochange
    (((buildExisting its).filter (fun x => ¬x.2.2.isManual)).map
      (fun x => (x.1, x.2.2.name, x.2.2.quantities))) (collect wp) hold
    ⟨[], [], ⟨[], [], [], (0, 0, 0)⟩⟩
  have har := addRemoved_skip
    (((buildExisting its).filter (fun x => ¬x.2.2.isManual)).map
      (fun x => (x.1, x.2.2.name, x.2.2.quantities)))
    ⟨[], [], [], (0, 0, 0)⟩ (collect wp) hall
  simp at hst har
  simp [generate_shopping_list, hst, har]

theorem replace_old_lookup (wp : WeekPlan) (items : List SItem)
    (hz : ∀ e ∈ collect wp, e.1 ≠ 0)
    (hm : ∀ it ∈ items, it.isManual = true → ∀ ing, it.ingredient = some ing →
      ∀ e ∈ collect wp, e.1 ≠ ing.id) :
    (∀ e ∈ collect wp,
      (((buildExisting (items.filter (fun it => it.isManual) ++
          (collect wp).map (fun e2 => mkItem e2.2.ingredient
            (aggregate_quantities e2.2.quantities) e2.2.isPantry))).filter
          (fun x => ¬x.2.2.isManual)).map
        (fun x => (x.1, x.2.2.name, x.2.2.quantities))).lookup e.1 =
        some (e.2.ingredient.name, aggregate_quantities e.2.quantities)) ∧
    (∀ p ∈ ((buildExisting (items.filter (fun it => it.isManual) ++
          (collect wp).map (fun e2 => mkItem e2.2.ingredient
            (aggregate_quantities e2.2.quantities) e2.2.isPantry))).filter
          (fun x => ¬x.2.2.isManual)).map
        (fun x => (x.1, x.2.2.name, x.2.2.quantities)),
      ((collect wp).lookup p.1).isSome = true) := by
  have hnonman : ∀ it ∈ items.filter (fun it => it.isManual) ++
      (collect wp).map (fun e2 => mkItem e2.2.ingredient
        (aggregate_quantities e2.2.quantities) e2.2.isPantry),
      it.isManual = false →
      ∃ e2 ∈ collect wp, it = mkItem e2.2.ingredient
        (aggregate_quantities e2.2.quantities) e2.2.isPantry := by
    intro it hit hman
    rcases List.mem_append.mp hit with h | h
    · have h3 := (List.mem_filter.mp h).2
      rw [hman] at h3
      exact absurd h3 (by simp)
    · obtain ⟨e2, he2, heq⟩ := List.mem_map.mp h
      exact ⟨e2, he2, heq.symm⟩
  have hentry : ∀ x ∈ buildExisting (items.filter (fun it => it.isManual) ++
      (collect wp).map (fun e2 => mkItem e2.2.ingredient
        (aggregate_quantities e2.2.quantities) e2.2.isPantry)),
      x.2.2.isManual = false →
      ∃ e2 ∈ collect wp, x.2.2 = mkItem e2.2.ingredient
        (aggregate_quantities e2.2.quantities) e2.2.isPantry ∧ e2.1 = x.1 := by
    intro x hx hman
    obtain ⟨hget, ing, hing, hid, hk0⟩ := buildExisting_mem _ x hx
    have hmem1 : x.2.2 ∈ items.filter (fun it => it.isManual) ++
        (collect wp).map (fun e2 => mkItem e2.2.ingredient
          (aggregate_quantities e2.2.quantities) e2.2.isPantry) :=
      List.mem_iff_getElem?.mpr ⟨x.2.1, hget⟩
    obtain ⟨e2, he2, heq⟩ := hnonman x.2.2 hmem1 hman
    refine ⟨e2, he2, heq, ?_⟩
    have hing2 : e2.2.ingredient = ing := by
      rw [heq] at hing
      exact Option.some_inj.mp hing
    calc e2.1 = e2.2.ingredient.id := (collect_mem_id wp e2 he2).symm
      _ = ing.id := by rw [hing2]
      _ = x.1 := hid
  constructor
  · intro e he
    have hk0 := hz e he
    have hkmem : e.1 ∈ (buildExisting (items.filter (fun it => it.isManual) ++
        (collect wp).map (fun e2 => mkItem e2.2.ingredient
          (aggregate_quantities e2.2.quantities) e2.2.isPantry))).map Prod.fst := by
      rw [mem_keys_buildExisting]
      exact ⟨mkItem e.2.ingredient (aggregate_quantities e.2.quantities) e.2.isPantry,
        List.mem_append_right _ (List.mem_map_of_mem _ he), e.2.ingredient, rfl,
        collect_mem_id wp e he, hk0⟩
    obtain ⟨w, hw, hwmem⟩ := lookup_mem_of_key hkmem
    obtain ⟨hwget, ing, hwing, hwid, _⟩ := buildExisting_mem _ _ hwmem
    have hwin : w.2 ∈ items.filter (fun it => it.isManual) ++
        (collect wp).map (fun e2 => mkItem e2.2.ingredient
          (aggregate_quantities e2.2.quantities) e2.2.isPantry) :=
      List.mem_iff_getElem?.mpr ⟨w.1, hwget⟩
    have hman : w.2.isManual = false := by
      by_contra hcon
      have hman2 : w.2.isManual = true := by
        cases hbool : w.2.isManual
        · exact absurd hbool hcon
        · rfl
      rcases List.mem_append.mp hwin with hM | hC
      · have hit : w.2 ∈ items := (List.mem_filter.mp hM).1
        exact hm w.2 hit hman2 ing hwing e he hwid.symm
      · obtain ⟨e2, _, heq⟩ := List.mem_map.mp hC
        rw [← heq] at hman2
        exact absurd hman2 (by simp [mkItem])
    obtain ⟨e2, he2, hweq, hkey⟩ := hentry (e.1, w) hwmem hman
    have hnd := collect_keys_nodup wp
    have h1 : (collect wp).lookup e.1 = some e.2 :=
      (lookup_eq_some_iff_mem_nodupkeys hnd).mpr he
    have h2 : (collect wp).lookup e2.1 = some e2.2 :=
      (lookup_eq_some_iff_mem_nodupkeys hnd).mpr he2
    have hkey2 : e2.1 = e.1 := hkey
    rw [hkey2, h1] at h2
    rw [Option.some_inj] at h2
    have hmemold : (e.1, w.2.name, w.2.quantities) ∈
        ((buildExisting (items.filter (fun it => it.isManual) ++
          (collect wp).map (fun e2 => mkItem e2.2.ingredient
            (aggregate_quantities e2.2.quantities) e2.2.isPantry))).filter
          (fun x => ¬x.2.2.isManual)).map
        (fun x => (x.1, x.2.2.name, x.2.2.quantities)) :=
      List.mem_map_of_mem _ (List.mem_filter.mpr ⟨hwmem, by simp [hman]⟩)
    have hlk := (lookup_eq_some_iff_mem_nodupkeys (oldItems_keys_nodup _)).mpr hmemold
    rw [hlk]
    rw [hweq, ← h2]
    rfl
  · intro p hp
    obtain ⟨x, hxf, hpx⟩ := List.mem_map.mp hp
    obtain ⟨hxmem, hxman⟩ := List.mem_filter.mp hxf
    have hman : x.2.2.isManual = false := by simpa using hxman
    obtain ⟨e2, he2, _, hkey⟩ := hentry x hxmem hman
    obtain ⟨v, hv, _⟩ := lookup_mem_of_key (List.mem_map_of_mem Prod.fst he2)
    have hp1 : p.1 = x.1 := by rw [← hpx]
    rw [hp1, ← hkey, hv]
    rfl

/-- C1 counterexample: Replace-mode reconciliation run twice is not always
idempotent at the change-report level: when a manual item aliases a collected
ingredient, the second run can report that ingredient as added even though
the item set is unchanged. -/
theorem C1_counterexample :
    ¬ ∀ (wp : WeekPlan) (items : List SItem),
      (generate_shopping_list wp ((generate_shopping_list wp items true true).1)
        true true).2 = ⟨[], [], [], (0, 0, 0)⟩ := by
  intro h
  have h2 := h ⟨[⟨0, some ⟨1, "Toast", false, [⟨⟨5, "Eggs", ⟨3, "Dairy"⟩, false⟩, "5"⟩]⟩, false, false⟩]⟩
    [⟨some ⟨5, "Eggs", ⟨3, "Dairy"⟩, false⟩, "Zebra", some ⟨3, "Dairy"⟩, "2", false, true, false, false, false⟩]
  revert h2
  decide

/-- C1 amended: the item set produced by a second Replace run over unchanged
recipe data is identical to the first run's, field for field, whatever the
inputs; and provided no collected ingredient has id 0 and no manual item
carries a collected ingredient, the second run's change report has empty
updated, added and removed maps and counts (0, 0, 0). -/
theorem C1_replace_idempotent (wp : WeekPlan) (items : List SItem) (rc rc2 : Bool) :
    ((generate_shopping_list wp ((generate_shopping_list wp items true rc).1)
        true rc2).1 =
      (generate_shopping_list wp items true rc).1) ∧
    ((∀ e ∈ collect wp, e.1 ≠ 0) →
      (∀ it ∈ items, it.isManual = true → ∀ ing, it.ingredient = some ing →
        ∀ e ∈ collect wp, e.1 ≠ ing.id) →
      (generate_shopping_list wp ((generate_shopping_list wp items true rc).1)
        true true).2 = ⟨[], [], [], (0, 0, 0)⟩) := by
  constructor
  · rw [generate_replace_items wp ((generate_shopping_list wp items true rc).1) rc2,
      generate_replace_items wp items rc]
    rw [List.filter_append]
    have hc : ((collect wp).map (fun e => mkItem e.2.ingredient
        (aggregate_quantities e.2.quantities) e.2.isPantry)).filter
          (fun it => it.isManual) = [] := by
      rw [List.filter_eq_nil_iff]
      intro x hx
      obtain ⟨e, _, hxe⟩ := List.mem_map.mp hx
      subst hxe
      simp [mkItem]
    rw [hc, List.append_nil, List.filter_filter]
    simp
  · intro hz hm
    rw [generate_replace_items wp items rc]
    obtain ⟨hold, hall⟩ := replace_old_lookup wp items hz hm
    exact generate_replace_changes_empty wp _
      (fun e he => ⟨e.2.ingredient.name, hold e he⟩) hall

theorem C1_replace_idempotent_witness :
    (∀ e ∈ collect ⟨[⟨0, some ⟨1, "Toast", false, [⟨⟨5, "Eggs", ⟨3, "Dairy"⟩, false⟩, "5"⟩]⟩, false, false⟩]⟩, e.1 ≠ 0) ∧
    (∀ it ∈ ([] : List SItem), it.isManual = true → ∀ ing, it.ingredient = some ing →
      ∀ e ∈ collect ⟨[⟨0, some ⟨1, "Toast", false, [⟨⟨5, "Eggs", ⟨3, "Dairy"⟩, false⟩, "5"⟩]⟩, false, false⟩]⟩, e.1 ≠ ing.id) ∧
    (((generate_shopping_list ⟨[⟨0, some ⟨1, "Toast", false, [⟨⟨5, "Eggs", ⟨3, "Dairy"⟩, false⟩, "5"⟩]⟩, false, false⟩]⟩
        ((generate_shopping_list ⟨[⟨0, some ⟨1, "Toast", false, [⟨⟨5, "Eggs", ⟨3, "Dairy"⟩, false⟩, "5"⟩]⟩, false, false⟩]⟩ [] true true).1) true true).1 =
      (generate_shopping_list ⟨[⟨0, some ⟨1, "Toast", false, [⟨⟨5, "Eggs", ⟨3, "Dairy"⟩, false⟩, "5"⟩]⟩, false, false⟩]⟩ [] true true).1) ∧
    (generate_shopping_list ⟨[⟨0, some ⟨1, "Toast", false, [⟨⟨5, "Eggs", ⟨3, "Dairy"⟩, false⟩, "5"⟩]⟩, false, false⟩]⟩
      ((generate_shopping_list ⟨[⟨0, some ⟨1, "Toast", false, [⟨⟨5, "Eggs", ⟨3, "Dairy"⟩, false⟩, "5"⟩]⟩, false, false⟩]⟩ [] true true).1)
      true true).2 = ⟨[], [], [], (0, 0, 0)⟩) :=
  ⟨by decide, by decide,
    (C1_replace_idempotent ⟨[⟨0, some ⟨1, "Toast", false, [⟨⟨5, "Eggs", ⟨3, "Dairy"⟩, false⟩, "5"⟩]⟩, false, false⟩]⟩ [] true true).1,
    (C1_replace_idempotent ⟨[⟨0, some ⟨1, "Toast", false, [⟨⟨5, "Eggs", ⟨3, "Dairy"⟩, false⟩, "5"⟩]⟩, false, false⟩]⟩ [] true true).2 (by decide) (by decide)⟩

end MealPlanner
